import Mathlib

/-!
Verification development for the reachable-functions analysis of the
oblivious-hashing repository (`src/ReachableFunctions.cpp`, namespace `oh`).

The C++ code computes, for an entry function of an LLVM module, the set of
functions reachable from it: a depth-first walk over the LLVM `CallGraph`
(`collect_reachable_functions`), followed by a fixpoint worklist that adds
signature-matched indirect-call targets and callback arguments
(`collect_indirectly_reachable_functions`).

Shallow embedding choices:
* LLVM `Function*` identity is modelled by a numeric id; the function's name
  is kept only for the `M.getFunction("main")` lookup of `runOnModule`.
* A uniqued `llvm::FunctionType*` is modelled by a `Nat` key (LLVM types are
  uniqued per context, so pointer equality is structural equality).
* A function body is flattened to the list of its instructions; only
  `CallInst`/`InvokeInst` carry information the analysis reads.
* `std::unordered_set<llvm::Function*>` becomes `Finset Nat`; iterating such a
  set (in an unspecified order in C++) is modelled by iterating it in
  ascending id order (`setList`).
* `FunctionTypeMap` (an `unordered_map` from type to function set) is modelled
  extensionally as `Nat → Finset Nat`; `collect_function_types` builds the map
  whose entry for a type is the set of module functions with that type, and a
  missed lookup is the empty set (matching the `find == end` branch).
* The two recursions of the C++ (the recursive DFS, which terminates through
  the visited-set guard, and the worklist loop, which terminates through the
  processed-set guard) are embedded with an explicit fuel parameter and an
  `Option` result: `none` marks fuel exhaustion, i.e. divergence.  The
  top-level wrappers pass a fuel bound computed from the module / call graph,
  and we prove that with this bound `none` never occurs, which is exactly the
  termination argument of the source.
-/

set_option maxRecDepth 8000

namespace oh

/-- An argument operand of a call site: either a direct reference to a
function (`llvm::dyn_cast<llvm::Function>(arg)` succeeds), or a non-function
value whose static type is itself a function type
(`llvm::dyn_cast<llvm::FunctionType>(arg->getType())` succeeds), or anything
else. -/
inductive Arg where
  | funcRef (f : Nat)
  | funcTyped (sig : Nat)
  | other
deriving DecidableEq, Repr

/-- An instruction of a function body.  `call` models `llvm::CallInst`,
`invoke` models `llvm::InvokeInst`; both carry the statically known callee
(`getCalledFunction()`, `none` when the call is indirect), the call site's
function type (`getFunctionType()`), and the argument operands.  All other
instructions are irrelevant to the analysis. -/
inductive Instr where
  | call (callee : Option Nat) (calledType : Nat) (args : List Arg)
  | invoke (callee : Option Nat) (calledType : Nat) (args : List Arg)
  | other
deriving DecidableEq, Repr

/-- An `llvm::Function` of the module: its id (pointer identity), its name,
its uniqued function type, whether it is a declaration (`isDeclaration()`,
i.e. has no body), and its body's instructions (empty for declarations). -/
structure Fn where
  id : Nat
  name : String
  sig : Nat
  isDecl : Bool
  body : List Instr
deriving DecidableEq, Repr

/-- An `llvm::Module`: the list of its functions (definitions and
declarations), as iterated by `for (auto& F : *m_module)`. -/
structure Module where
  functions : List Fn
deriving DecidableEq, Repr

/-- An `llvm::CallGraphNode`: its underlying function (`getFunction()`, which
may be null) and its call records' target nodes (`call_it->second`), each a
possibly-null pointer to another node, here an index into the node list. -/
structure CGNode where
  func : Option Nat
  children : List (Option Nat)
deriving DecidableEq, Repr

/-- An `llvm::CallGraph`: the nodes, and the map `(*m_callGraph)[F]` from a
function to its node (possibly null). -/
structure CallGraph where
  nodes : List CGNode
  entry : Nat → Option Nat

/-- Iterate a finite set of function ids in ascending order; this fixes the
unspecified iteration order of the C++ `std::unordered_set`. -/
def setList (s : Finset Nat) : List Nat :=
  Quot.liftOn s.val (fun l => l.insertionSort (fun a b => a ≤ b))
    (fun a b h =>
      List.eq_of_perm_of_sorted
        (((List.perm_insertionSort _ a).trans h).trans
          (List.perm_insertionSort _ b).symm)
        (List.sorted_insertionSort _ a) (List.sorted_insertionSort _ b))

/-- Pointer dereference for a function id: the first function of the module
with that id. -/
def Module.find (m : Module) (f : Nat) : Option Fn :=
  m.functions.find? (fun F => F.id == f)

/-- `M.getFunction(name)`: the first function of the module with that name. -/
def Module.getFunction (m : Module) (name : String) : Option Fn :=
  m.functions.find? (fun F => F.name == name)

/-- `F->isDeclaration()` for the function with id `f` of module `m`. -/
def isDecl (m : Module) (f : Nat) : Bool :=
  match m.find f with
  | some F => F.isDecl
  | none => false

/-- The body instructions of the function with id `f` of module `m`
(`for (auto& B : *F) for (auto& I : B)` flattened). -/
def bodyOf (m : Module) (f : Nat) : List Instr :=
  match m.find f with
  | some F => F.body
  | none => []

/-- `callNode->getFunction()` through a possibly-null node pointer. -/
def nodeFunOf (cg : CallGraph) (node : Option Nat) : Option Nat :=
  match node with
  | none => none
  | some n =>
    match cg.nodes[n]? with
    | none => none
    | some nd => nd.func

/-- The call records of node `n` (`callNode->begin() .. callNode->end()`). -/
def childrenOf (cg : CallGraph) (n : Nat) : List (Option Nat) :=
  match cg.nodes[n]? with
  | none => []
  | some nd => nd.children

/-- `ReachableFunctions::collect_function_types` (lines 42-50): the map from a
function type to the set of module functions with that type.  Note the C++
loop inserts every `F` of the module, with no `isDeclaration()` filter, so
declarations are indexed too. -/
def collect_function_types (m : Module) : Nat → Finset Nat :=
  fun t => ((m.functions.filter (fun F => F.sig == t)).map (fun F => F.id)).toFinset

/-- `ReachableFunctions::get_indirect_called_functions` (lines 130-143): for a
call site, if the callee is statically known return nothing; otherwise look up
the call site's function type in the index (a missed lookup gives `∅`). -/
def get_indirect_called_functions (functionTypes : Nat → Finset Nat)
    (callee : Option Nat) (calledType : Nat) : Finset Nat :=
  match callee with
  | some _ => ∅
  | none => functionTypes calledType

/-- `ReachableFunctions::get_functions_from_arguments` (lines 145-162): scan
the argument operands; a direct function reference is collected, and a
non-function argument of function type contributes every index entry of that
type. -/
def get_functions_from_arguments (functionTypes : Nat → Finset Nat)
    (args : List Arg) : Finset Nat :=
  args.foldl
    (fun callbacks a =>
      match a with
      | Arg.funcRef g => insert g callbacks
      | Arg.funcTyped s => callbacks ∪ functionTypes s
      | Arg.other => callbacks)
    ∅

/-- The contribution of one instruction inside
`ReachableFunctions::collect_indirectly_called_functions` (lines 102-128):
`CallInst` and `InvokeInst` are handled identically, everything else is
skipped. -/
def instrFunctions (functionTypes : Nat → Finset Nat) (i : Instr) : Finset Nat :=
  match i with
  | Instr.call callee t args =>
      get_indirect_called_functions functionTypes callee t ∪
        get_functions_from_arguments functionTypes args
  | Instr.invoke callee t args =>
      get_indirect_called_functions functionTypes callee t ∪
        get_functions_from_arguments functionTypes args
  | Instr.other => ∅

/-- `ReachableFunctions::collect_indirectly_called_functions` (lines 102-128):
the union over the body's call sites of indirect targets and callback
arguments. -/
def collect_indirectly_called_functions (m : Module)
    (functionTypes : Nat → Finset Nat) (f : Nat) : Finset Nat :=
  (bodyOf m f).foldl
    (fun called_functions i => called_functions ∪ instrFunctions functionTypes i) ∅

/-- Fueled embedding of `ReachableFunctions::collect_reachable_functions`
(lines 52-69).  The C++ recursion `collect(node, out)` is run sequentially on
a list of pending nodes: processing a node returns immediately when the node
is null, has no underlying function, the function is a declaration, or the
function is already in `out`; otherwise the function is inserted and all child
nodes are processed before the remaining pending nodes.  Each step consumes
one unit of fuel; `none` reports fuel exhaustion (never reached with the
wrapper bound below). -/
def collectMany (m : Module) (cg : CallGraph) :
    Nat → List (Option Nat) → Finset Nat → Option (Finset Nat)
  | _, [], out => some out
  | 0, _ :: _, _ => none
  | fuel + 1, node :: rest, out =>
    match node with
    | none => collectMany m cg fuel rest out
    | some n =>
      match nodeFunOf cg (some n) with
      | none => collectMany m cg fuel rest out
      | some f =>
        if isDecl m f then collectMany m cg fuel rest out
        else if f ∈ out then collectMany m cg fuel rest out
        else
          match collectMany m cg fuel (childrenOf cg n) (insert f out) with
          | none => none
          | some out₁ => collectMany m cg fuel rest out₁

/-- Fuel bound for the DFS: one unit per node plus one per call record, plus
slack; enough because every productive step permanently marks one function
visited. -/
def dfsFuel (cg : CallGraph) : Nat :=
  (cg.nodes.map (fun nd => 1 + nd.children.length)).sum + 2

/-- `ReachableFunctions::collect_reachable_functions` (lines 52-69) from a
single (possibly null) call graph node, growing `out`. -/
def collect_reachable_functions (m : Module) (cg : CallGraph)
    (node : Option Nat) (out : Finset Nat) : Option (Finset Nat) :=
  collectMany m cg (dfsFuel cg) [node] out

/-- The inner loop at lines 93-97: for each function of `reachables`, insert
it into the reachable set and push it onto the working list when the
insertion succeeded. -/
def merge_reachables :
    List Nat → Finset Nat → List Nat → Finset Nat × List Nat
  | [], reachable, wl => (reachable, wl)
  | f :: rest, reachable, wl =>
    if f ∈ reachable then merge_reachables rest reachable wl
    else merge_reachables rest (insert f reachable) (wl ++ [f])

/-- The loop at lines 86-98: for each candidate indirectly-called function, if
newly inserted into the reachable set, push it, run the direct DFS from its
call graph node into a fresh set, and merge that set (pushing every newly
inserted member). -/
def process_candidates (m : Module) (cg : CallGraph) :
    List Nat → Finset Nat → List Nat → Option (Finset Nat × List Nat)
  | [], reachable, wl => some (reachable, wl)
  | f :: rest, reachable, wl =>
    if f ∈ reachable then process_candidates m cg rest reachable wl
    else
      match collect_reachable_functions m cg (cg.entry f) ∅ with
      | none => none
      | some reachables =>
        let p := merge_reachables (setList reachables) (insert f reachable) (wl ++ [f])
        process_candidates m cg rest p.1 p.2

/-- Fueled embedding of the worklist loop of
`ReachableFunctions::collect_indirectly_reachable_functions` (lines 71-100):
pop the front, skip if already processed, otherwise mark processed, compute
the indirectly called functions and process the candidates.  One unit of fuel
per iteration; `none` reports fuel exhaustion. -/
def indirectAux (m : Module) (cg : CallGraph) (functionTypes : Nat → Finset Nat) :
    Nat → List Nat → Finset Nat → Finset Nat → Option (Finset Nat)
  | _, [], reachable, _ => some reachable
  | 0, _ :: _, _, _ => none
  | fuel + 1, f :: rest, reachable, processed =>
    if f ∈ processed then indirectAux m cg functionTypes fuel rest reachable processed
    else
      match process_candidates m cg
          (setList (collect_indirectly_called_functions m functionTypes f))
          reachable rest with
      | none => none
      | some p => indirectAux m cg functionTypes fuel p.2 p.1 (insert f processed)

/-- The ids of the module's functions. -/
def moduleIds (m : Module) : Finset Nat :=
  (m.functions.map (fun F => F.id)).toFinset

/-- The functions that appear on some call graph node. -/
def graphFuns (cg : CallGraph) : Finset Nat :=
  (cg.nodes.filterMap (fun nd => nd.func)).toFinset

/-- The direct function references among an instruction's arguments. -/
def instrArgRefs (i : Instr) : List Nat :=
  match i with
  | Instr.call _ _ args =>
      args.filterMap (fun a => match a with | Arg.funcRef g => some g | _ => none)
  | Instr.invoke _ _ args =>
      args.filterMap (fun a => match a with | Arg.funcRef g => some g | _ => none)
  | Instr.other => []

/-- All direct function references appearing as call arguments anywhere in the
module. -/
def argRefs (m : Module) : Finset Nat :=
  (m.functions.flatMap (fun F => F.body.flatMap instrArgRefs)).toFinset

/-- Every function the worklist loop can ever insert: module functions (the
index's range), call-graph functions (DFS results) and argument references. -/
def candidates (m : Module) (cg : CallGraph) : Finset Nat :=
  moduleIds m ∪ graphFuns cg ∪ argRefs m

/-- `ReachableFunctions::collect_indirectly_reachable_functions` (lines
71-100): seed the working list with the current reachable set and run the
worklist loop, with fuel covering the seed plus every insertable function. -/
def collect_indirectly_reachable_functions (m : Module) (cg : CallGraph)
    (functionTypes : Nat → Finset Nat) (reachable : Finset Nat) :
    Option (Finset Nat) :=
  indirectAux m cg functionTypes (reachable.card + (candidates m cg).card + 1)
    (setList reachable) reachable ∅

/-- `ReachableFunctions::getReachableFunctions` (lines 27-40): build the type
index, run the direct DFS from the entry's call graph node, then close under
indirect calls. -/
def getReachableFunctions (m : Module) (cg : CallGraph) (F : Nat) :
    Option (Finset Nat) :=
  match collect_reachable_functions m cg (cg.entry F) ∅ with
  | none => none
  | some reachable_functions =>
      collect_indirectly_reachable_functions m cg (collect_function_types m)
        reachable_functions

/-- The same pipeline with explicit fuel for both phases, used to state that
the result does not depend on the fuel (the only artifact of the embedding),
i.e. the query is deterministic. -/
def getReachableFunctionsFuel (m : Module) (cg : CallGraph)
    (dfsF wlF : Nat) (F : Nat) : Option (Finset Nat) :=
  match collectMany m cg dfsF [cg.entry F] ∅ with
  | none => none
  | some r₀ => indirectAux m cg (collect_function_types m) wlF (setList r₀) r₀ ∅

/-- Outcome of `ReachableFunctionsPass::runOnModule` (lines 166-191): the
returned flag, whether the `"No function main"` diagnostic was printed, and
the reachable set that was computed (absent when there is no `main`). -/
structure RunResult where
  returnValue : Bool
  loggedNoMain : Bool
  reachable : Option (Finset Nat)
deriving DecidableEq

/-- `ReachableFunctionsPass::runOnModule` (lines 166-191): look up `main`; if
missing, log and return `false` with no result; otherwise compute the
reachable set from `main` and return `false`. -/
def runOnModule (m : Module) (cg : CallGraph) : RunResult :=
  match m.getFunction "main" with
  | none => ⟨false, true, none⟩
  | some mainF => ⟨false, false, getReachableFunctions m cg mainF.id⟩

/-! ### Basic facts about `setList` -/

theorem setList_coe (s : Finset Nat) (l : List Nat) (h : s.val = ↑l) :
    setList s = l.insertionSort (fun a b => a ≤ b) := by
  rw [setList, h]
  rfl

theorem mem_setList {s : Finset Nat} {x : Nat} : x ∈ setList s ↔ x ∈ s := by
  obtain ⟨l, hl⟩ := Quot.exists_rep s.val
  rw [setList_coe s l hl.symm, (List.perm_insertionSort _ l).mem_iff,
    Finset.mem_def, ← hl]
  exact Multiset.mem_coe.symm

theorem length_setList (s : Finset Nat) : (setList s).length = s.card := by
  obtain ⟨l, hl⟩ := Quot.exists_rep s.val
  rw [setList_coe s l hl.symm, (List.perm_insertionSort _ l).length_eq,
    Finset.card_def, ← hl]
  exact (Multiset.coe_card l).symm

theorem setList_empty : setList (∅ : Finset Nat) = [] := rfl

/-! ### Membership characterizations of the per-call-site resolution -/

theorem mem_foldl_union {β : Type} (g : β → Finset Nat) (l : List β)
    (init : Finset Nat) (x : Nat) :
    x ∈ l.foldl (fun s i => s ∪ g i) init ↔ x ∈ init ∨ ∃ i ∈ l, x ∈ g i := by
  induction l generalizing init with
  | nil => simp
  | cons a t ih =>
    rw [List.foldl_cons, ih]
    simp [or_assoc]

/-- The per-argument contribution of `get_functions_from_arguments`. -/
def argFuncs (functionTypes : Nat → Finset Nat) (a : Arg) : Finset Nat :=
  match a with
  | Arg.funcRef g => {g}
  | Arg.funcTyped s => functionTypes s
  | Arg.other => ∅

theorem gffa_foldl (functionTypes : Nat → Finset Nat) (args : List Arg)
    (init : Finset Nat) (x : Nat) :
    x ∈ args.foldl
      (fun callbacks a =>
        match a with
        | Arg.funcRef g => insert g callbacks
        | Arg.funcTyped s => callbacks ∪ functionTypes s
        | Arg.other => callbacks) init ↔
      x ∈ init ∨ ∃ a ∈ args, x ∈ argFuncs functionTypes a := by
  induction args generalizing init with
  | nil => simp
  | cons a t ih =>
    rw [List.foldl_cons, ih]
    cases a <;> simp [argFuncs, or_assoc] <;> tauto

theorem mem_gffa {functionTypes : Nat → Finset Nat} {args : List Arg} {x : Nat} :
    x ∈ get_functions_from_arguments functionTypes args ↔
      ∃ a ∈ args, x ∈ argFuncs functionTypes a := by
  rw [get_functions_from_arguments, gffa_foldl]
  simp

theorem mem_icf {m : Module} {functionTypes : Nat → Finset Nat} {f : Nat} {x : Nat} :
    x ∈ collect_indirectly_called_functions m functionTypes f ↔
      ∃ i ∈ bodyOf m f, x ∈ instrFunctions functionTypes i := by
  rw [collect_indirectly_called_functions, mem_foldl_union]
  simp

theorem mem_collect_function_types {m : Module} {t : Nat} {x : Nat} :
    x ∈ collect_function_types m t ↔
      ∃ F ∈ m.functions, F.id = x ∧ F.sig = t := by
  simp only [collect_function_types, List.mem_toFinset, List.mem_map,
    List.mem_filter, beq_iff_eq]
  constructor
  · rintro ⟨F, ⟨hF, hs⟩, hid⟩
    exact ⟨F, hF, hid, hs⟩
  · rintro ⟨F, hF, hid, hs⟩
    exact ⟨F, ⟨hF, hs⟩, hid⟩


/-! ### The direct call-graph walk: basic invariants -/

theorem mem_of_getElem?_nodes {l : List CGNode} {n : Nat} {nd : CGNode}
    (h : l[n]? = some nd) : nd ∈ l := by
  obtain ⟨hl, rfl⟩ := List.getElem?_eq_some.mp h
  exact List.getElem_mem hl

theorem nodeFunOf_mem_graphFuns {cg : CallGraph} {node : Option Nat} {f : Nat}
    (h : nodeFunOf cg node = some f) : f ∈ graphFuns cg := by
  match node with
  | none => simp [nodeFunOf] at h
  | some n =>
    simp only [nodeFunOf] at h
    match hn : cg.nodes[n]? with
    | none => rw [hn] at h; exact absurd h (by simp)
    | some nd =>
      rw [hn] at h
      exact List.mem_toFinset.mpr (List.mem_filterMap.mpr
        ⟨nd, mem_of_getElem?_nodes hn, h⟩)

/-- Inversion principle for one step of the embedded DFS: processing the head
of the pending-node list either skips it (null node, external node, no
underlying function, declaration, or already visited) and continues with the
rest, or inserts its function, fully processes the node's call records, and
then continues with the rest. -/
theorem collectMany_cons_inv (m : Module) (cg : CallGraph) (k : Nat)
    (c : Option Nat) (rest : List (Option Nat)) (out r : Finset Nat)
    (h : collectMany m cg (k + 1) (c :: rest) out = some r) :
    (nodeFunOf cg c = none ∧ collectMany m cg k rest out = some r) ∨
    (∃ f, nodeFunOf cg c = some f ∧ isDecl m f = true ∧
      collectMany m cg k rest out = some r) ∨
    (∃ f, nodeFunOf cg c = some f ∧ isDecl m f = false ∧ f ∈ out ∧
      collectMany m cg k rest out = some r) ∨
    (∃ f n out₁, c = some n ∧ nodeFunOf cg c = some f ∧ isDecl m f = false ∧
      f ∉ out ∧
      collectMany m cg k (childrenOf cg n) (insert f out) = some out₁ ∧
      collectMany m cg k rest out₁ = some r) := by
  cases c with
  | none =>
    simp only [collectMany] at h
    exact Or.inl ⟨rfl, h⟩
  | some n =>
    simp only [collectMany] at h
    cases hnf : nodeFunOf cg (some n) with
    | none =>
      simp only [hnf] at h
      exact Or.inl ⟨rfl, h⟩
    | some f =>
      simp only [hnf] at h
      by_cases hd : isDecl m f = true
      · simp only [if_pos hd] at h
        exact Or.inr (Or.inl ⟨f, rfl, hd, h⟩)
      · simp only [if_neg hd] at h
        have hd' : isDecl m f = false := by simpa using hd
        by_cases hmem : f ∈ out
        · simp only [if_pos hmem] at h
          exact Or.inr (Or.inr (Or.inl ⟨f, rfl, hd', hmem, h⟩))
        · simp only [if_neg hmem] at h
          cases heq : collectMany m cg k (childrenOf cg n) (insert f out) with
          | none =>
            simp only [heq] at h
            exact absurd h (by simp)
          | some out₁ =>
            simp only [heq] at h
            exact Or.inr (Or.inr (Or.inr ⟨f, n, out₁, rfl, rfl, hd', hmem, heq, h⟩))

theorem collectMany_mono (m : Module) (cg : CallGraph) :
    ∀ fuel cs out r, collectMany m cg fuel cs out = some r → out ⊆ r := by
  intro fuel
  induction fuel with
  | zero =>
    intro cs out r h
    match cs with
    | [] =>
      simp only [collectMany, Option.some.injEq] at h
      exact h ▸ Finset.Subset.refl out
    | c :: rest => simp [collectMany] at h
  | succ k ih =>
    intro cs out r h
    match cs with
    | [] =>
      simp only [collectMany, Option.some.injEq] at h
      exact h ▸ Finset.Subset.refl out
    | c :: rest =>
      rcases collectMany_cons_inv m cg k c rest out r h with
        ⟨_, h1⟩ | ⟨f, _, _, h1⟩ | ⟨f, _, _, _, h1⟩ |
        ⟨f, n, out₁, rfl, _, _, _, heq, h1⟩
      · exact ih _ _ _ h1
      · exact ih _ _ _ h1
      · exact ih _ _ _ h1
      · exact Finset.Subset.trans
          (Finset.Subset.trans (Finset.subset_insert f out) (ih _ _ _ heq))
          (ih _ _ _ h1)

theorem collectMany_subset (m : Module) (cg : CallGraph) :
    ∀ fuel cs out r, collectMany m cg fuel cs out = some r →
      r ⊆ out ∪ graphFuns cg := by
  intro fuel
  induction fuel with
  | zero =>
    intro cs out r h
    match cs with
    | [] =>
      simp only [collectMany, Option.some.injEq] at h
      exact h ▸ Finset.subset_union_left
    | c :: rest => simp [collectMany] at h
  | succ k ih =>
    intro cs out r h
    match cs with
    | [] =>
      simp only [collectMany, Option.some.injEq] at h
      exact h ▸ Finset.subset_union_left
    | c :: rest =>
      rcases collectMany_cons_inv m cg k c rest out r h with
        ⟨_, h1⟩ | ⟨f, _, _, h1⟩ | ⟨f, _, _, _, h1⟩ |
        ⟨f, n, out₁, rfl, hnf, _, _, heq, h1⟩
      · exact ih _ _ _ h1
      · exact ih _ _ _ h1
      · exact ih _ _ _ h1
      · have hf : f ∈ graphFuns cg := nodeFunOf_mem_graphFuns hnf
        have s1 := ih _ _ _ heq
        have s2 := ih _ _ _ h1
        intro x hx
        rcases Finset.mem_union.mp (s2 hx) with hx1 | hx1
        · rcases Finset.mem_union.mp (s1 hx1) with hx2 | hx2
          · rcases Finset.mem_insert.mp hx2 with rfl | hx3
            · exact Finset.mem_union_right _ hf
            · exact Finset.mem_union_left _ hx3
          · exact Finset.mem_union_right _ hx2
        · exact Finset.mem_union_right _ hx1

theorem collectMany_no_decl (m : Module) (cg : CallGraph) :
    ∀ fuel cs out r, collectMany m cg fuel cs out = some r →
      ∀ f ∈ r, f ∉ out → isDecl m f = false := by
  intro fuel
  induction fuel with
  | zero =>
    intro cs out r h
    match cs with
    | [] =>
      simp only [collectMany, Option.some.injEq] at h
      subst h
      intro f hf hout
      exact absurd hf hout
    | c :: rest => simp [collectMany] at h
  | succ k ih =>
    intro cs out r h
    match cs with
    | [] =>
      simp only [collectMany, Option.some.injEq] at h
      subst h
      intro f hf hout
      exact absurd hf hout
    | c :: rest =>
      rcases collectMany_cons_inv m cg k c rest out r h with
        ⟨_, h1⟩ | ⟨f₀, _, _, h1⟩ | ⟨f₀, _, _, _, h1⟩ |
        ⟨f₀, n, out₁, rfl, _, hd', hout₀, heq, h1⟩
      · exact ih _ _ _ h1
      · exact ih _ _ _ h1
      · exact ih _ _ _ h1
      · intro f hf hout
        by_cases hmem : f ∈ out₁
        · by_cases hins : f ∈ insert f₀ out
          · rcases Finset.mem_insert.mp hins with rfl | hf2
            · exact hd'
            · exact absurd hf2 hout
          · exact ih _ _ _ heq f hmem hins
        · exact ih _ _ _ h1 f hf hmem

theorem collectMany_handled (m : Module) (cg : CallGraph) :
    ∀ fuel cs out r, collectMany m cg fuel cs out = some r →
      ∀ c ∈ cs, ∀ g, nodeFunOf cg c = some g → isDecl m g = false → g ∈ r := by
  intro fuel
  induction fuel with
  | zero =>
    intro cs out r h
    match cs with
    | [] => intro c hc; exact absurd hc (List.not_mem_nil c)
    | c :: rest => simp [collectMany] at h
  | succ k ih =>
    intro cs out r h
    match cs with
    | [] => intro c hc; exact absurd hc (List.not_mem_nil c)
    | c :: rest =>
      intro c' hc' g hg hgd
      rcases collectMany_cons_inv m cg k c rest out r h with
        ⟨hnf, h1⟩ | ⟨f₀, hnf, hd, h1⟩ | ⟨f₀, hnf, _, hmem, h1⟩ |
        ⟨f₀, n, out₁, heqc, hnf, _, _, heq, h1⟩
      · rcases List.mem_cons.mp hc' with rfl | hc'
        · rw [hg] at hnf
          exact absurd hnf (by simp)
        · exact ih _ _ _ h1 c' hc' g hg hgd
      · rcases List.mem_cons.mp hc' with rfl | hc'
        · obtain rfl := Option.some.inj (hnf.symm.trans hg)
          rw [hgd] at hd
          exact absurd hd (by simp)
        · exact ih _ _ _ h1 c' hc' g hg hgd
      · rcases List.mem_cons.mp hc' with rfl | hc'
        · obtain rfl := Option.some.inj (hnf.symm.trans hg)
          exact collectMany_mono m cg _ _ _ _ h1 hmem
        · exact ih _ _ _ h1 c' hc' g hg hgd
      · rcases List.mem_cons.mp hc' with rfl | hc'
        · obtain rfl := Option.some.inj (hnf.symm.trans hg)
          exact collectMany_mono m cg _ _ _ _ h1
            (collectMany_mono m cg _ _ _ _ heq (Finset.mem_insert_self f₀ out))
        · exact ih _ _ _ h1 c' hc' g hg hgd


/-! ### The direct call-graph walk: statically-known callees -/

/-- The functions of the child nodes of node `n`. -/
def childFunsOfNode (cg : CallGraph) (n : Nat) : List Nat :=
  (childrenOf cg n).filterMap (fun c => nodeFunOf cg c)

/-- The statically known callees of function `f` according to the call graph:
the functions on the call records of `f`'s node. -/
def directCallees (cg : CallGraph) (f : Nat) : List Nat :=
  match cg.entry f with
  | none => []
  | some n => childFunsOfNode cg n

/-- Consistency of the call graph with itself: a node holding function `f` is
the node `(*m_callGraph)[f]`, as the LLVM call graph guarantees. -/
def nodeFunConsistentB (cg : CallGraph) : Bool :=
  (List.range cg.nodes.length).all (fun i =>
    match nodeFunOf cg (some i) with
    | none => true
    | some f => cg.entry f == some i)

theorem nodeFunConsistent_spec {cg : CallGraph} (hB : nodeFunConsistentB cg = true) :
    ∀ n f, nodeFunOf cg (some n) = some f → cg.entry f = some n := by
  intro n f h
  have hn : n < cg.nodes.length := by
    simp only [nodeFunOf] at h
    match hx : cg.nodes[n]? with
    | none => rw [hx] at h; exact absurd h (by simp)
    | some nd => exact (List.getElem?_eq_some.mp hx).1
  have := List.all_eq_true.mp hB n (List.mem_range.mpr hn)
  simp only [h] at this
  exact eq_of_beq this

theorem nodeFunOf_some_elim {cg : CallGraph} {n : Nat} {f : Nat}
    (h : nodeFunOf cg (some n) = some f) :
    ∃ nd, cg.nodes[n]? = some nd ∧ nd.func = some f := by
  simp only [nodeFunOf] at h
  match hx : cg.nodes[n]? with
  | none => rw [hx] at h; exact absurd h (by simp)
  | some nd => rw [hx] at h; exact ⟨nd, rfl, h⟩

/-- Every function newly inserted by the DFS has all of its statically known,
non-declaration callees in the final result. -/
theorem collectMany_closed (m : Module) (cg : CallGraph)
    (hwf : ∀ n f, nodeFunOf cg (some n) = some f → cg.entry f = some n) :
    ∀ fuel cs out r, collectMany m cg fuel cs out = some r →
      ∀ f ∈ r, f ∉ out → ∀ g ∈ directCallees cg f, isDecl m g = false → g ∈ r := by
  intro fuel
  induction fuel with
  | zero =>
    intro cs out r h
    match cs with
    | [] =>
      simp only [collectMany, Option.some.injEq] at h
      subst h
      intro f hf hout
      exact absurd hf hout
    | c :: rest => simp [collectMany] at h
  | succ k ih =>
    intro cs out r h
    match cs with
    | [] =>
      simp only [collectMany, Option.some.injEq] at h
      subst h
      intro f hf hout
      exact absurd hf hout
    | c :: rest =>
      rcases collectMany_cons_inv m cg k c rest out r h with
        ⟨_, h1⟩ | ⟨f₀, _, _, h1⟩ | ⟨f₀, _, _, _, h1⟩ |
        ⟨f₀, n, out₁, rfl, hnf, hd', hmem, heq, h1⟩
      · exact ih _ _ _ h1
      · exact ih _ _ _ h1
      · exact ih _ _ _ h1
      · intro f hf hout g hgcall hgd
        by_cases h2 : f ∈ out₁
        · by_cases h3 : f ∈ insert f₀ out
          · rcases Finset.mem_insert.mp h3 with rfl | h4
            · have hentry := hwf n f hnf
              simp only [directCallees, hentry] at hgcall
              obtain ⟨c', hc', hcg⟩ := List.mem_filterMap.mp hgcall
              exact collectMany_mono m cg _ _ _ _ h1
                (collectMany_handled m cg _ _ _ _ heq c' hc' g hcg hgd)
            · exact absurd h4 hout
          · exact collectMany_mono m cg _ _ _ _ h1
              (ih _ _ _ heq f h2 h3 g hgcall hgd)
        · exact ih _ _ _ h1 f hf h2 g hgcall hgd

/-! ### Termination of the direct walk -/

/-- Fuel cost a node can still cause: zero once its function is visited. -/
def nodeWeight (out : Finset Nat) (nd : CGNode) : Nat :=
  match nd.func with
  | none => 0
  | some f => if f ∈ out then 0 else 1 + nd.children.length

/-- Total remaining fuel the whole graph can still consume. -/
def potential (cg : CallGraph) (out : Finset Nat) : Nat :=
  (cg.nodes.map (nodeWeight out)).sum

theorem nodeWeight_mono {out out' : Finset Nat} (hsub : out ⊆ out') (nd : CGNode) :
    nodeWeight out' nd ≤ nodeWeight out nd := by
  cases hf : nd.func with
  | none => simp [nodeWeight, hf]
  | some f =>
    simp only [nodeWeight, hf]
    by_cases hmem : f ∈ out
    · simp [hmem, hsub hmem]
    · by_cases hmem' : f ∈ out'
      · simp [hmem, hmem']
      · simp [hmem, hmem']

theorem potential_mono (cg : CallGraph) {out out' : Finset Nat}
    (hsub : out ⊆ out') : potential cg out' ≤ potential cg out :=
  List.sum_le_sum (fun nd _ => nodeWeight_mono hsub nd)

theorem sum_map_drop {l : List CGNode} {nd : CGNode} (k : Nat)
    (w w' : CGNode → Nat) (hmem : nd ∈ l)
    (hpt : ∀ x ∈ l, w' x ≤ w x) (hk : w' nd + k ≤ w nd) :
    (l.map w').sum + k ≤ (l.map w).sum := by
  induction l with
  | nil => exact absurd hmem (List.not_mem_nil nd)
  | cons a t ih =>
    rcases List.mem_cons.mp hmem with rfl | hmem'
    · have hrest : (t.map w').sum ≤ (t.map w).sum :=
        List.sum_le_sum (fun x hx => hpt x (List.mem_cons_of_mem _ hx))
      simp only [List.map_cons, List.sum_cons]
      omega
    · have hhead : w' a ≤ w a := hpt a (List.mem_cons_self a t)
      have hrest := ih hmem' (fun x hx => hpt x (List.mem_cons_of_mem _ hx))
      simp only [List.map_cons, List.sum_cons]
      omega

theorem potential_drop (cg : CallGraph) {n : Nat} {nd : CGNode} {f : Nat}
    {out : Finset Nat} (hn : cg.nodes[n]? = some nd) (hf : nd.func = some f)
    (hout : f ∉ out) :
    1 + nd.children.length + potential cg (insert f out) ≤ potential cg out := by
  have h2 := sum_map_drop (1 + nd.children.length) (nodeWeight out)
    (nodeWeight (insert f out)) (mem_of_getElem?_nodes hn)
    (fun x _ => nodeWeight_mono (Finset.subset_insert f out) x)
    (by simp [nodeWeight, hf, hout])
  simp only [potential]
  omega

theorem collectMany_isSome (m : Module) (cg : CallGraph) :
    ∀ fuel cs out, cs.length + potential cg out < fuel →
      (collectMany m cg fuel cs out).isSome := by
  intro fuel
  induction fuel with
  | zero => intro cs out hlt; omega
  | succ k ih =>
    intro cs out hlt
    match cs with
    | [] => simp [collectMany]
    | c :: rest =>
      cases c with
      | none =>
        simp only [collectMany]
        refine ih rest out ?_
        simp only [List.length_cons] at hlt
        omega
      | some n =>
        simp only [collectMany]
        cases hnf : nodeFunOf cg (some n) with
        | none =>
          refine ih rest out ?_
          simp only [List.length_cons] at hlt
          omega
        | some f =>
          by_cases hd : isDecl m f = true
          · simp only [if_pos hd]
            refine ih rest out ?_
            simp only [List.length_cons] at hlt
            omega
          · simp only [if_neg hd]
            by_cases hmem : f ∈ out
            · simp only [if_pos hmem]
              refine ih rest out ?_
              simp only [List.length_cons] at hlt
              omega
            · simp only [if_neg hmem]
              obtain ⟨nd, hn, hfn⟩ := nodeFunOf_some_elim hnf
              have hch : childrenOf cg n = nd.children := by
                simp [childrenOf, hn]
              have hdrop := potential_drop cg hn hfn hmem
              simp only [List.length_cons] at hlt
              have h1 : (childrenOf cg n).length + potential cg (insert f out) < k := by
                rw [hch]
                omega
              obtain ⟨out₁, heq⟩ := Option.isSome_iff_exists.mp (ih _ _ h1)
              simp only [heq]
              refine ih rest out₁ ?_
              have hsub : insert f out ⊆ out₁ := collectMany_mono m cg _ _ _ _ heq
              have hpot : potential cg out₁ ≤ potential cg (insert f out) :=
                potential_mono cg hsub
              rw [hch] at *
              omega

theorem collectMany_fuel_mono (m : Module) (cg : CallGraph) :
    ∀ fuel fuel' cs out r, fuel ≤ fuel' →
      collectMany m cg fuel cs out = some r →
      collectMany m cg fuel' cs out = some r := by
  intro fuel
  induction fuel with
  | zero =>
    intro fuel' cs out r _ h
    match cs with
    | [] =>
      simp only [collectMany, Option.some.injEq] at h
      subst h
      cases fuel' <;> simp [collectMany]
    | c :: rest => simp [collectMany] at h
  | succ k ih =>
    intro fuel' cs out r hle h
    match cs with
    | [] =>
      simp only [collectMany, Option.some.injEq] at h
      subst h
      cases fuel' <;> simp [collectMany]
    | c :: rest =>
      match fuel' with
      | 0 => omega
      | k' + 1 =>
        have hk : k ≤ k' := by omega
        cases c with
        | none =>
          simp only [collectMany] at h ⊢
          exact ih k' _ _ _ hk h
        | some n =>
          simp only [collectMany] at h ⊢
          cases hnf : nodeFunOf cg (some n) with
          | none =>
            simp only [hnf] at h ⊢
            exact ih k' _ _ _ hk h
          | some f =>
            simp only [hnf] at h ⊢
            by_cases hd : isDecl m f = true
            · simp only [if_pos hd] at h ⊢
              exact ih k' _ _ _ hk h
            · simp only [if_neg hd] at h ⊢
              by_cases hmem : f ∈ out
              · simp only [if_pos hmem] at h ⊢
                exact ih k' _ _ _ hk h
              · simp only [if_neg hmem] at h ⊢
                cases heq : collectMany m cg k (childrenOf cg n) (insert f out) with
                | none =>
                  rw [heq] at h
                  exact absurd h (by simp)
                | some out₁ =>
                  rw [heq] at h
                  rw [ih k' _ _ _ hk heq]
                  exact ih k' _ _ _ hk h

/-! ### The wrapper `collect_reachable_functions` -/

theorem potential_le_dfsFuel (cg : CallGraph) (out : Finset Nat) :
    potential cg out + 2 ≤ dfsFuel cg := by
  have h : potential cg out ≤ (cg.nodes.map (fun nd => 1 + nd.children.length)).sum := by
    refine List.sum_le_sum (fun nd _ => ?_)
    cases hf : nd.func with
    | none => simp [nodeWeight, hf]
    | some f =>
      simp only [nodeWeight, hf]
      by_cases hmem : f ∈ out
      · simp [hmem]
      · simp [hmem]
  simp only [dfsFuel]
  omega

theorem collect_reachable_functions_isSome (m : Module) (cg : CallGraph)
    (node : Option Nat) (out : Finset Nat) :
    (collect_reachable_functions m cg node out).isSome := by
  refine collectMany_isSome m cg _ _ _ ?_
  have := potential_le_dfsFuel cg out
  simp only [List.length_cons, List.length_nil]
  omega

theorem collect_reachable_functions_mono (m : Module) (cg : CallGraph)
    {node : Option Nat} {out r : Finset Nat}
    (h : collect_reachable_functions m cg node out = some r) : out ⊆ r :=
  collectMany_mono m cg _ _ _ _ h

theorem collect_reachable_functions_subset (m : Module) (cg : CallGraph)
    {node : Option Nat} {out r : Finset Nat}
    (h : collect_reachable_functions m cg node out = some r) :
    r ⊆ out ∪ graphFuns cg :=
  collectMany_subset m cg _ _ _ _ h


/-! ### The inner merge loop (lines 93-97) -/

theorem merge_step (f : Nat) (rest : List Nat) (reachable : Finset Nat)
    (wl : List Nat) :
    merge_reachables (f :: rest) reachable wl =
      if f ∈ reachable then merge_reachables rest reachable wl
      else merge_reachables rest (insert f reachable) (wl ++ [f]) := rfl

theorem merge_mono :
    ∀ (lst : List Nat) (reachable : Finset Nat) (wl : List Nat),
      reachable ⊆ (merge_reachables lst reachable wl).1 := by
  intro lst
  induction lst with
  | nil => intro reachable wl; exact Finset.Subset.refl _
  | cons f rest ih =>
    intro reachable wl
    rw [merge_step]
    by_cases hmem : f ∈ reachable
    · rw [if_pos hmem]; exact ih reachable wl
    · rw [if_neg hmem]
      exact Finset.Subset.trans (Finset.subset_insert f reachable)
        (ih (insert f reachable) (wl ++ [f]))

theorem merge_mem_lst :
    ∀ (lst : List Nat) (reachable : Finset Nat) (wl : List Nat),
      ∀ x ∈ lst, x ∈ (merge_reachables lst reachable wl).1 := by
  intro lst
  induction lst with
  | nil => intro reachable wl x hx; exact absurd hx (List.not_mem_nil x)
  | cons f rest ih =>
    intro reachable wl x hx
    rw [merge_step]
    by_cases hmem : f ∈ reachable
    · rw [if_pos hmem]
      rcases List.mem_cons.mp hx with rfl | hx'
      · exact merge_mono rest reachable wl hmem
      · exact ih reachable wl x hx'
    · rw [if_neg hmem]
      rcases List.mem_cons.mp hx with rfl | hx'
      · exact merge_mono rest (insert x reachable) (wl ++ [x])
          (Finset.mem_insert_self x reachable)
      · exact ih (insert f reachable) (wl ++ [f]) x hx'

theorem merge_subset :
    ∀ (lst : List Nat) (reachable : Finset Nat) (wl : List Nat),
      ∀ x ∈ (merge_reachables lst reachable wl).1, x ∈ reachable ∨ x ∈ lst := by
  intro lst
  induction lst with
  | nil => intro reachable wl x hx; exact Or.inl hx
  | cons f rest ih =>
    intro reachable wl x hx
    rw [merge_step] at hx
    by_cases hmem : f ∈ reachable
    · rw [if_pos hmem] at hx
      rcases ih reachable wl x hx with hx' | hx'
      · exact Or.inl hx'
      · exact Or.inr (List.mem_cons_of_mem f hx')
    · rw [if_neg hmem] at hx
      rcases ih (insert f reachable) (wl ++ [f]) x hx with hx' | hx'
      · rcases Finset.mem_insert.mp hx' with rfl | hx2
        · exact Or.inr (List.mem_cons_self x rest)
        · exact Or.inl hx2
      · exact Or.inr (List.mem_cons_of_mem f hx')

theorem merge_wl_mono :
    ∀ (lst : List Nat) (reachable : Finset Nat) (wl : List Nat),
      ∀ x ∈ wl, x ∈ (merge_reachables lst reachable wl).2 := by
  intro lst
  induction lst with
  | nil => intro reachable wl x hx; exact hx
  | cons f rest ih =>
    intro reachable wl x hx
    rw [merge_step]
    by_cases hmem : f ∈ reachable
    · rw [if_pos hmem]; exact ih reachable wl x hx
    · rw [if_neg hmem]
      exact ih (insert f reachable) (wl ++ [f]) x
        (List.mem_append_left [f] hx)

theorem merge_wl_subset :
    ∀ (lst : List Nat) (reachable : Finset Nat) (wl : List Nat),
      ∀ x ∈ (merge_reachables lst reachable wl).2, x ∈ wl ∨ x ∈ lst := by
  intro lst
  induction lst with
  | nil => intro reachable wl x hx; exact Or.inl hx
  | cons f rest ih =>
    intro reachable wl x hx
    rw [merge_step] at hx
    by_cases hmem : f ∈ reachable
    · rw [if_pos hmem] at hx
      rcases ih reachable wl x hx with hx' | hx'
      · exact Or.inl hx'
      · exact Or.inr (List.mem_cons_of_mem f hx')
    · rw [if_neg hmem] at hx
      rcases ih (insert f reachable) (wl ++ [f]) x hx with hx' | hx'
      · rcases List.mem_append.mp hx' with hx2 | hx2
        · exact Or.inl hx2
        · rw [List.mem_singleton.mp hx2]
          exact Or.inr (List.mem_cons_self f rest)
      · exact Or.inr (List.mem_cons_of_mem f hx')

theorem merge_new_pushed :
    ∀ (lst : List Nat) (reachable : Finset Nat) (wl : List Nat),
      ∀ x ∈ (merge_reachables lst reachable wl).1,
        x ∈ reachable ∨ x ∈ (merge_reachables lst reachable wl).2 := by
  intro lst
  induction lst with
  | nil => intro reachable wl x hx; exact Or.inl hx
  | cons f rest ih =>
    intro reachable wl x hx
    rw [merge_step] at hx ⊢
    by_cases hmem : f ∈ reachable
    · rw [if_pos hmem] at hx ⊢
      exact ih reachable wl x hx
    · rw [if_neg hmem] at hx ⊢
      rcases ih (insert f reachable) (wl ++ [f]) x hx with hx' | hx'
      · rcases Finset.mem_insert.mp hx' with rfl | hx2
        · exact Or.inr (merge_wl_mono rest (insert x reachable) (wl ++ [x]) x
            (List.mem_append_right wl (List.mem_singleton_self x)))
        · exact Or.inl hx2
      · exact Or.inr hx'

theorem merge_fuel (cand : Finset Nat) :
    ∀ (lst : List Nat) (reachable : Finset Nat) (wl : List Nat),
      (∀ x ∈ lst, x ∈ cand) →
      (merge_reachables lst reachable wl).2.length +
          (cand \ (merge_reachables lst reachable wl).1).card ≤
        wl.length + (cand \ reachable).card := by
  intro lst
  induction lst with
  | nil => intro reachable wl _; exact Nat.le_refl _
  | cons f rest ih =>
    intro reachable wl hcand
    rw [merge_step]
    by_cases hmem : f ∈ reachable
    · rw [if_pos hmem]
      exact ih reachable wl (fun x hx => hcand x (List.mem_cons_of_mem f hx))
    · rw [if_neg hmem]
      have h1 := ih (insert f reachable) (wl ++ [f])
        (fun x hx => hcand x (List.mem_cons_of_mem f hx))
      have hf : f ∈ cand \ reachable :=
        Finset.mem_sdiff.mpr ⟨hcand f (List.mem_cons_self f rest), hmem⟩
      have h2 : (cand \ insert f reachable).card + 1 = (cand \ reachable).card := by
        rw [Finset.sdiff_insert]
        exact Finset.card_erase_add_one hf
      have h3 : (wl ++ [f]).length = wl.length + 1 := by simp
      omega


/-! ### The per-candidate loop (lines 86-98) -/

theorem process_step (m : Module) (cg : CallGraph) (f : Nat) (rest : List Nat)
    (reachable : Finset Nat) (wl : List Nat) :
    process_candidates m cg (f :: rest) reachable wl =
      if f ∈ reachable then process_candidates m cg rest reachable wl
      else
        match collect_reachable_functions m cg (cg.entry f) ∅ with
        | none => none
        | some reachables =>
          process_candidates m cg rest
            (merge_reachables (setList reachables) (insert f reachable) (wl ++ [f])).1
            (merge_reachables (setList reachables) (insert f reachable) (wl ++ [f])).2 := by
  by_cases hmem : f ∈ reachable
  · simp [process_candidates, if_pos hmem]
  · simp only [process_candidates, if_neg hmem]

theorem process_isSome (m : Module) (cg : CallGraph) :
    ∀ (lst : List Nat) (reachable : Finset Nat) (wl : List Nat),
      (process_candidates m cg lst reachable wl).isSome := by
  intro lst
  induction lst with
  | nil => intro reachable wl; simp [process_candidates]
  | cons f rest ih =>
    intro reachable wl
    rw [process_step]
    by_cases hmem : f ∈ reachable
    · rw [if_pos hmem]; exact ih reachable wl
    · rw [if_neg hmem]
      obtain ⟨rs, heq⟩ := Option.isSome_iff_exists.mp
        (collect_reachable_functions_isSome m cg (cg.entry f) ∅)
      rw [heq]
      exact ih _ _

theorem process_mono (m : Module) (cg : CallGraph) :
    ∀ (lst : List Nat) (reachable : Finset Nat) (wl : List Nat) p,
      process_candidates m cg lst reachable wl = some p → reachable ⊆ p.1 := by
  intro lst
  induction lst with
  | nil =>
    intro reachable wl p h
    simp only [process_candidates, Option.some.injEq] at h
    exact h ▸ Finset.Subset.refl _
  | cons f rest ih =>
    intro reachable wl p h
    rw [process_step] at h
    by_cases hmem : f ∈ reachable
    · rw [if_pos hmem] at h; exact ih reachable wl p h
    · rw [if_neg hmem] at h
      cases heq : collect_reachable_functions m cg (cg.entry f) ∅ with
      | none => rw [heq] at h; exact absurd h (by simp)
      | some rs =>
        rw [heq] at h
        exact Finset.Subset.trans
          (Finset.Subset.trans (Finset.subset_insert f reachable)
            (merge_mono (setList rs) (insert f reachable) (wl ++ [f])))
          (ih _ _ p h)

theorem process_mem_lst (m : Module) (cg : CallGraph) :
    ∀ (lst : List Nat) (reachable : Finset Nat) (wl : List Nat) p,
      process_candidates m cg lst reachable wl = some p →
      ∀ x ∈ lst, x ∈ p.1 := by
  intro lst
  induction lst with
  | nil => intro reachable wl p _ x hx; exact absurd hx (List.not_mem_nil x)
  | cons f rest ih =>
    intro reachable wl p h x hx
    rw [process_step] at h
    by_cases hmem : f ∈ reachable
    · rw [if_pos hmem] at h
      rcases List.mem_cons.mp hx with rfl | hx'
      · exact process_mono m cg rest reachable wl p h hmem
      · exact ih reachable wl p h x hx'
    · rw [if_neg hmem] at h
      cases heq : collect_reachable_functions m cg (cg.entry f) ∅ with
      | none => rw [heq] at h; exact absurd h (by simp)
      | some rs =>
        rw [heq] at h
        rcases List.mem_cons.mp hx with rfl | hx'
        · exact process_mono m cg rest _ _ p h
            (merge_mono (setList rs) (insert x reachable) (wl ++ [x])
              (Finset.mem_insert_self x reachable))
        · exact ih _ _ p h x hx'

theorem process_subset (m : Module) (cg : CallGraph) :
    ∀ (lst : List Nat) (reachable : Finset Nat) (wl : List Nat) p,
      process_candidates m cg lst reachable wl = some p →
      ∀ x ∈ p.1, x ∈ reachable ∨ x ∈ lst ∨ x ∈ graphFuns cg := by
  intro lst
  induction lst with
  | nil =>
    intro reachable wl p h x hx
    simp only [process_candidates, Option.some.injEq] at h
    subst h
    exact Or.inl hx
  | cons f rest ih =>
    intro reachable wl p h x hx
    rw [process_step] at h
    by_cases hmem : f ∈ reachable
    · rw [if_pos hmem] at h
      rcases ih reachable wl p h x hx with h1 | h1 | h1
      · exact Or.inl h1
      · exact Or.inr (Or.inl (List.mem_cons_of_mem f h1))
      · exact Or.inr (Or.inr h1)
    · rw [if_neg hmem] at h
      cases heq : collect_reachable_functions m cg (cg.entry f) ∅ with
      | none => rw [heq] at h; exact absurd h (by simp)
      | some rs =>
        rw [heq] at h
        rcases ih _ _ p h x hx with h1 | h1 | h1
        · rcases merge_subset (setList rs) (insert f reachable) (wl ++ [f]) x h1 with
            h2 | h2
          · rcases Finset.mem_insert.mp h2 with rfl | h3
            · exact Or.inr (Or.inl (List.mem_cons_self x rest))
            · exact Or.inl h3
          · have h3 : x ∈ rs := mem_setList.mp h2
            have h4 := collect_reachable_functions_subset m cg heq h3
            rw [Finset.empty_union] at h4
            exact Or.inr (Or.inr h4)
        · exact Or.inr (Or.inl (List.mem_cons_of_mem f h1))
        · exact Or.inr (Or.inr h1)

theorem process_wl_mono (m : Module) (cg : CallGraph) :
    ∀ (lst : List Nat) (reachable : Finset Nat) (wl : List Nat) p,
      process_candidates m cg lst reachable wl = some p →
      ∀ x ∈ wl, x ∈ p.2 := by
  intro lst
  induction lst with
  | nil =>
    intro reachable wl p h x hx
    simp only [process_candidates, Option.some.injEq] at h
    subst h
    exact hx
  | cons f rest ih =>
    intro reachable wl p h x hx
    rw [process_step] at h
    by_cases hmem : f ∈ reachable
    · rw [if_pos hmem] at h; exact ih reachable wl p h x hx
    · rw [if_neg hmem] at h
      cases heq : collect_reachable_functions m cg (cg.entry f) ∅ with
      | none => rw [heq] at h; exact absurd h (by simp)
      | some rs =>
        rw [heq] at h
        exact ih _ _ p h x
          (merge_wl_mono (setList rs) (insert f reachable) (wl ++ [f]) x
            (List.mem_append_left [f] hx))

theorem process_new_pushed (m : Module) (cg : CallGraph) :
    ∀ (lst : List Nat) (reachable : Finset Nat) (wl : List Nat) p,
      process_candidates m cg lst reachable wl = some p →
      ∀ x ∈ p.1, x ∈ reachable ∨ x ∈ p.2 := by
  intro lst
  induction lst with
  | nil =>
    intro reachable wl p h x hx
    simp only [process_candidates, Option.some.injEq] at h
    subst h
    exact Or.inl hx
  | cons f rest ih =>
    intro reachable wl p h x hx
    rw [process_step] at h
    by_cases hmem : f ∈ reachable
    · rw [if_pos hmem] at h; exact ih reachable wl p h x hx
    · rw [if_neg hmem] at h
      cases heq : collect_reachable_functions m cg (cg.entry f) ∅ with
      | none => rw [heq] at h; exact absurd h (by simp)
      | some rs =>
        rw [heq] at h
        rcases ih _ _ p h x hx with h1 | h1
        · rcases merge_new_pushed (setList rs) (insert f reachable) (wl ++ [f]) x h1 with
            h2 | h2
          · rcases Finset.mem_insert.mp h2 with rfl | h3
            · refine Or.inr (process_wl_mono m cg rest _ _ p h x ?_)
              exact merge_wl_mono (setList rs) (insert x reachable) (wl ++ [x]) x
                (List.mem_append_right wl (List.mem_singleton_self x))
            · exact Or.inl h3
          · exact Or.inr (process_wl_mono m cg rest _ _ p h x h2)
        · exact Or.inr h1

theorem process_fuel (m : Module) (cg : CallGraph) (cand : Finset Nat)
    (hgf : graphFuns cg ⊆ cand) :
    ∀ (lst : List Nat) (reachable : Finset Nat) (wl : List Nat) p,
      (∀ x ∈ lst, x ∈ cand) →
      process_candidates m cg lst reachable wl = some p →
      p.2.length + (cand \ p.1).card ≤ wl.length + (cand \ reachable).card := by
  intro lst
  induction lst with
  | nil =>
    intro reachable wl p _ h
    simp only [process_candidates, Option.some.injEq] at h
    subst h
    exact Nat.le_refl _
  | cons f rest ih =>
    intro reachable wl p hcand h
    rw [process_step] at h
    by_cases hmem : f ∈ reachable
    · rw [if_pos hmem] at h
      exact ih reachable wl p (fun x hx => hcand x (List.mem_cons_of_mem f hx)) h
    · rw [if_neg hmem] at h
      cases heq : collect_reachable_functions m cg (cg.entry f) ∅ with
      | none => rw [heq] at h; exact absurd h (by simp)
      | some rs =>
        rw [heq] at h
        have hlst : ∀ x ∈ setList rs, x ∈ cand := by
          intro x hx
          have h3 : x ∈ rs := mem_setList.mp hx
          have h4 := collect_reachable_functions_subset m cg heq h3
          rw [Finset.empty_union] at h4
          exact hgf h4
        have h1 := merge_fuel cand (setList rs) (insert f reachable) (wl ++ [f]) hlst
        have h2 := ih _ _ p (fun x hx => hcand x (List.mem_cons_of_mem f hx)) h
        have hf : f ∈ cand \ reachable :=
          Finset.mem_sdiff.mpr ⟨hcand f (List.mem_cons_self f rest), hmem⟩
        have h3 : (cand \ insert f reachable).card + 1 = (cand \ reachable).card := by
          rw [Finset.sdiff_insert]
          exact Finset.card_erase_add_one hf
        have h4 : (wl ++ [f]).length = wl.length + 1 := by simp
        omega


/-! ### The worklist loop (lines 71-100) -/

theorem indirectAux_step (m : Module) (cg : CallGraph)
    (functionTypes : Nat → Finset Nat) (fuel : Nat) (f : Nat) (rest : List Nat)
    (reachable processed : Finset Nat) :
    indirectAux m cg functionTypes (fuel + 1) (f :: rest) reachable processed =
      if f ∈ processed then
        indirectAux m cg functionTypes fuel rest reachable processed
      else
        match process_candidates m cg
            (setList (collect_indirectly_called_functions m functionTypes f))
            reachable rest with
        | none => none
        | some p =>
          indirectAux m cg functionTypes fuel p.2 p.1 (insert f processed) := rfl

theorem indirectAux_mono (m : Module) (cg : CallGraph)
    (functionTypes : Nat → Finset Nat) :
    ∀ fuel wl reachable processed r,
      indirectAux m cg functionTypes fuel wl reachable processed = some r →
      reachable ⊆ r := by
  intro fuel
  induction fuel with
  | zero =>
    intro wl reachable processed r h
    match wl with
    | [] =>
      simp only [indirectAux, Option.some.injEq] at h
      exact h ▸ Finset.Subset.refl _
    | f :: rest => simp [indirectAux] at h
  | succ k ih =>
    intro wl reachable processed r h
    match wl with
    | [] =>
      simp only [indirectAux, Option.some.injEq] at h
      exact h ▸ Finset.Subset.refl _
    | f :: rest =>
      rw [indirectAux_step] at h
      by_cases hmem : f ∈ processed
      · rw [if_pos hmem] at h
        exact ih rest reachable processed r h
      · rw [if_neg hmem] at h
        cases heq : process_candidates m cg
            (setList (collect_indirectly_called_functions m functionTypes f))
            reachable rest with
        | none => rw [heq] at h; exact absurd h (by simp)
        | some p =>
          rw [heq] at h
          exact Finset.Subset.trans (process_mono m cg _ _ _ p heq)
            (ih p.2 p.1 (insert f processed) r h)

theorem indirectAux_fuel_mono (m : Module) (cg : CallGraph)
    (functionTypes : Nat → Finset Nat) :
    ∀ fuel fuel' wl reachable processed r, fuel ≤ fuel' →
      indirectAux m cg functionTypes fuel wl reachable processed = some r →
      indirectAux m cg functionTypes fuel' wl reachable processed = some r := by
  intro fuel
  induction fuel with
  | zero =>
    intro fuel' wl reachable processed r _ h
    match wl with
    | [] =>
      simp only [indirectAux, Option.some.injEq] at h
      subst h
      cases fuel' <;> simp [indirectAux]
    | f :: rest => simp [indirectAux] at h
  | succ k ih =>
    intro fuel' wl reachable processed r hle h
    match wl with
    | [] =>
      simp only [indirectAux, Option.some.injEq] at h
      subst h
      cases fuel' <;> simp [indirectAux]
    | f :: rest =>
      match fuel' with
      | 0 => omega
      | k' + 1 =>
        have hk : k ≤ k' := by omega
        rw [indirectAux_step] at h ⊢
        by_cases hmem : f ∈ processed
        · rw [if_pos hmem] at h ⊢
          exact ih k' _ _ _ r hk h
        · rw [if_neg hmem] at h ⊢
          cases heq : process_candidates m cg
              (setList (collect_indirectly_called_functions m functionTypes f))
              reachable rest with
          | none => rw [heq] at h; exact absurd h (by simp)
          | some p =>
            rw [heq] at h
            exact ih k' p.2 p.1 (insert f processed) r hk h

theorem indirectAux_isSome (m : Module) (cg : CallGraph)
    (functionTypes : Nat → Finset Nat) (cand : Finset Nat)
    (hgf : graphFuns cg ⊆ cand)
    (hicf : ∀ f x, x ∈ collect_indirectly_called_functions m functionTypes f →
      x ∈ cand) :
    ∀ fuel wl reachable processed,
      wl.length + (cand \ reachable).card < fuel →
      (indirectAux m cg functionTypes fuel wl reachable processed).isSome := by
  intro fuel
  induction fuel with
  | zero => intro wl reachable processed hlt; omega
  | succ k ih =>
    intro wl reachable processed hlt
    match wl with
    | [] => simp [indirectAux]
    | f :: rest =>
      rw [indirectAux_step]
      by_cases hmem : f ∈ processed
      · rw [if_pos hmem]
        refine ih rest reachable processed ?_
        simp only [List.length_cons] at hlt
        omega
      · rw [if_neg hmem]
        obtain ⟨p, heq⟩ := Option.isSome_iff_exists.mp
          (process_isSome m cg
            (setList (collect_indirectly_called_functions m functionTypes f))
            reachable rest)
        rw [heq]
        have hlst : ∀ x ∈ setList (collect_indirectly_called_functions m functionTypes f),
            x ∈ cand := by
          intro x hx
          exact hicf f x (mem_setList.mp hx)
        have h1 := process_fuel m cg cand hgf _ _ _ p hlst heq
        refine ih p.2 p.1 (insert f processed) ?_
        simp only [List.length_cons] at hlt
        omega

/-- Every function in the final reachable set has had its call sites scanned:
the set is closed under the indirectly-called-functions map. -/
theorem indirectAux_icf_closed (m : Module) (cg : CallGraph)
    (functionTypes : Nat → Finset Nat) :
    ∀ fuel wl reachable processed r,
      indirectAux m cg functionTypes fuel wl reachable processed = some r →
      (∀ f ∈ reachable, f ∈ processed ∨ f ∈ wl) →
      (∀ f ∈ processed,
        collect_indirectly_called_functions m functionTypes f ⊆ reachable) →
      ∀ f ∈ r, collect_indirectly_called_functions m functionTypes f ⊆ r := by
  intro fuel
  induction fuel with
  | zero =>
    intro wl reachable processed r h hinv1 hinv2
    match wl with
    | [] =>
      simp only [indirectAux, Option.some.injEq] at h
      subst h
      intro f hf
      rcases hinv1 f hf with hp | hp
      · exact hinv2 f hp
      · exact absurd hp (List.not_mem_nil f)
    | f :: rest => simp [indirectAux] at h
  | succ k ih =>
    intro wl reachable processed r h hinv1 hinv2
    match wl with
    | [] =>
      simp only [indirectAux, Option.some.injEq] at h
      subst h
      intro f hf
      rcases hinv1 f hf with hp | hp
      · exact hinv2 f hp
      · exact absurd hp (List.not_mem_nil f)
    | f :: rest =>
      rw [indirectAux_step] at h
      by_cases hmem : f ∈ processed
      · rw [if_pos hmem] at h
        refine ih rest reachable processed r h ?_ hinv2
        intro g hg
        rcases hinv1 g hg with hp | hp
        · exact Or.inl hp
        · rcases List.mem_cons.mp hp with rfl | hp'
          · exact Or.inl hmem
          · exact Or.inr hp'
      · rw [if_neg hmem] at h
        cases heq : process_candidates m cg
            (setList (collect_indirectly_called_functions m functionTypes f))
            reachable rest with
        | none => rw [heq] at h; exact absurd h (by simp)
        | some p =>
          rw [heq] at h
          refine ih p.2 p.1 (insert f processed) r h ?_ ?_
          · intro g hg
            rcases process_new_pushed m cg _ _ _ p heq g hg with hg1 | hg1
            · rcases hinv1 g hg1 with hp | hp
              · exact Or.inl (Finset.mem_insert_of_mem hp)
              · rcases List.mem_cons.mp hp with rfl | hp'
                · exact Or.inl (Finset.mem_insert_self g processed)
                · exact Or.inr (process_wl_mono m cg _ _ _ p heq g hp')
            · exact Or.inr hg1
          · intro g hg
            rcases Finset.mem_insert.mp hg with rfl | hg'
            · intro x hx
              exact process_mem_lst m cg _ _ _ p heq x (mem_setList.mpr hx)
            · exact Finset.Subset.trans (hinv2 g hg') (process_mono m cg _ _ _ p heq)


/-! ### Candidate bounds and top-level termination -/

theorem mem_candidates_module {m : Module} {cg : CallGraph} {x : Nat}
    (h : x ∈ moduleIds m) : x ∈ candidates m cg :=
  Finset.mem_union_left _ (Finset.mem_union_left _ h)

theorem mem_candidates_graph {m : Module} {cg : CallGraph} {x : Nat}
    (h : x ∈ graphFuns cg) : x ∈ candidates m cg :=
  Finset.mem_union_left _ (Finset.mem_union_right _ h)

theorem mem_candidates_args {m : Module} {cg : CallGraph} {x : Nat}
    (h : x ∈ argRefs m) : x ∈ candidates m cg :=
  Finset.mem_union_right _ h

theorem find_spec {m : Module} {f : Nat} {F : Fn} (h : m.find f = some F) :
    F ∈ m.functions ∧ F.id = f := by
  refine ⟨List.mem_of_find?_eq_some h, ?_⟩
  have := List.find?_some h
  exact eq_of_beq this

theorem cft_subset_moduleIds (m : Module) :
    ∀ s, collect_function_types m s ⊆ moduleIds m := by
  intro s x hx
  obtain ⟨F, hF, hid, _⟩ := mem_collect_function_types.mp hx
  exact List.mem_toFinset.mpr (List.mem_map.mpr ⟨F, hF, hid⟩)

theorem icf_subset_candidates (m : Module) (cg : CallGraph)
    (functionTypes : Nat → Finset Nat)
    (hFT : ∀ s, functionTypes s ⊆ moduleIds m) :
    ∀ f x, x ∈ collect_indirectly_called_functions m functionTypes f →
      x ∈ candidates m cg := by
  intro f x hx
  obtain ⟨i, hi, hxi⟩ := mem_icf.mp hx
  cases hfind : m.find f with
  | none =>
    simp only [bodyOf, hfind] at hi
    exact absurd hi (List.not_mem_nil i)
  | some F =>
    have hF : F ∈ m.functions := (find_spec hfind).1
    simp only [bodyOf, hfind] at hi
    cases i with
    | other => simp [instrFunctions] at hxi
    | call callee t args =>
      simp only [instrFunctions] at hxi
      rcases Finset.mem_union.mp hxi with h1 | h1
      · cases callee with
        | some c => simp [get_indirect_called_functions] at h1
        | none =>
          simp only [get_indirect_called_functions] at h1
          exact mem_candidates_module (hFT t h1)
      · obtain ⟨a, ha, hxa⟩ := mem_gffa.mp h1
        cases a with
        | funcRef g =>
          simp only [argFuncs, Finset.mem_singleton] at hxa
          subst hxa
          refine mem_candidates_args (List.mem_toFinset.mpr ?_)
          refine List.mem_flatMap.mpr ⟨F, hF, List.mem_flatMap.mpr ⟨_, hi, ?_⟩⟩
          exact List.mem_filterMap.mpr ⟨Arg.funcRef x, ha, rfl⟩
        | funcTyped s =>
          simp only [argFuncs] at hxa
          exact mem_candidates_module (hFT s hxa)
        | other => simp [argFuncs] at hxa
    | invoke callee t args =>
      simp only [instrFunctions] at hxi
      rcases Finset.mem_union.mp hxi with h1 | h1
      · cases callee with
        | some c => simp [get_indirect_called_functions] at h1
        | none =>
          simp only [get_indirect_called_functions] at h1
          exact mem_candidates_module (hFT t h1)
      · obtain ⟨a, ha, hxa⟩ := mem_gffa.mp h1
        cases a with
        | funcRef g =>
          simp only [argFuncs, Finset.mem_singleton] at hxa
          subst hxa
          refine mem_candidates_args (List.mem_toFinset.mpr ?_)
          refine List.mem_flatMap.mpr ⟨F, hF, List.mem_flatMap.mpr ⟨_, hi, ?_⟩⟩
          exact List.mem_filterMap.mpr ⟨Arg.funcRef x, ha, rfl⟩
        | funcTyped s =>
          simp only [argFuncs] at hxa
          exact mem_candidates_module (hFT s hxa)
        | other => simp [argFuncs] at hxa

theorem collect_indirectly_isSome (m : Module) (cg : CallGraph)
    (functionTypes : Nat → Finset Nat)
    (hFT : ∀ s, functionTypes s ⊆ moduleIds m) (reachable : Finset Nat) :
    (collect_indirectly_reachable_functions m cg functionTypes reachable).isSome := by
  refine indirectAux_isSome m cg functionTypes (candidates m cg)
    (fun x hx => mem_candidates_graph hx)
    (icf_subset_candidates m cg functionTypes hFT) _ _ _ _ ?_
  rw [length_setList]
  have h1 : (candidates m cg \ reachable).card ≤ (candidates m cg).card :=
    Finset.card_le_card (Finset.sdiff_subset)
  omega

theorem collect_indirectly_mono {m : Module} {cg : CallGraph}
    {functionTypes : Nat → Finset Nat} {reachable r : Finset Nat}
    (h : collect_indirectly_reachable_functions m cg functionTypes reachable = some r) :
    reachable ⊆ r :=
  indirectAux_mono m cg functionTypes _ _ _ _ _ h

theorem getReachableFunctions_elim {m : Module} {cg : CallGraph} {F : Nat}
    {r : Finset Nat} (h : getReachableFunctions m cg F = some r) :
    ∃ r₀, collect_reachable_functions m cg (cg.entry F) ∅ = some r₀ ∧
      collect_indirectly_reachable_functions m cg (collect_function_types m) r₀ =
        some r := by
  unfold getReachableFunctions at h
  cases heq : collect_reachable_functions m cg (cg.entry F) ∅ with
  | none => rw [heq] at h; exact absurd h (by simp)
  | some r₀ =>
    rw [heq] at h
    exact ⟨r₀, rfl, h⟩

theorem getReachableFunctions_isSome (m : Module) (cg : CallGraph) (F : Nat) :
    (getReachableFunctions m cg F).isSome := by
  unfold getReachableFunctions
  cases heq : collect_reachable_functions m cg (cg.entry F) ∅ with
  | none =>
    have := collect_reachable_functions_isSome m cg (cg.entry F) ∅
    rw [heq] at this
    exact absurd this (by simp)
  | some r₀ =>
    exact collect_indirectly_isSome m cg (collect_function_types m)
      (cft_subset_moduleIds m) r₀


/-! ### Well-formedness of module and call graph (LLVM guarantees) -/

/-- The statically known callee of an instruction, when there is one. -/
def instrCallee : Instr → Option Nat
  | Instr.call c _ _ => c
  | Instr.invoke c _ _ => c
  | Instr.other => none

/-- Declarations have no body. -/
def declNoBodyB (m : Module) : Bool :=
  m.functions.all (fun F => !F.isDecl || F.body.isEmpty)

/-- Function ids are pointer identities: pairwise distinct. -/
def idsNodupB (m : Module) : Bool :=
  decide ((m.functions.map (fun F => F.id)).Nodup)

/-- `(*m_callGraph)[F]` is a non-null node whose function is `F`. -/
def entryConsistentB (m : Module) (cg : CallGraph) : Bool :=
  m.functions.all (fun F => nodeFunOf cg (cg.entry F.id) == some F.id)

/-- Every function on a call graph node belongs to the module. -/
def nodeFunsInModuleB (m : Module) (cg : CallGraph) : Bool :=
  cg.nodes.all (fun nd => nd.func.all (fun f => decide (f ∈ moduleIds m)))

/-- The call graph covers the bodies: a call site with a statically known
callee yields a call record from the caller's node to the callee's node. -/
def bodyEdgesB (m : Module) (cg : CallGraph) : Bool :=
  m.functions.all (fun F => F.body.all (fun i =>
    (instrCallee i).all (fun c => decide (c ∈ directCallees cg F.id))))

/-- Function-reference arguments refer to functions of the module. -/
def argsInModuleB (m : Module) : Bool :=
  m.functions.all (fun F => F.body.all (fun i =>
    (instrArgRefs i).all (fun g => decide (g ∈ moduleIds m))))

/-- All LLVM-guaranteed consistency conditions between module and call graph
that the analysis relies on. -/
abbrev WellFormed (m : Module) (cg : CallGraph) : Prop :=
  declNoBodyB m = true ∧ idsNodupB m = true ∧ entryConsistentB m cg = true ∧
    nodeFunsInModuleB m cg = true ∧ bodyEdgesB m cg = true ∧
    argsInModuleB m = true ∧ nodeFunConsistentB cg = true

theorem declNoBody_spec {m : Module} (h : declNoBodyB m = true) :
    ∀ F ∈ m.functions, F.isDecl = true → F.body = [] := by
  intro F hF hd
  have := List.all_eq_true.mp h F hF
  rw [hd] at this
  simpa using this

theorem idsNodup_spec {m : Module} (h : idsNodupB m = true) :
    (m.functions.map (fun F => F.id)).Nodup :=
  of_decide_eq_true h

theorem entryConsistent_spec {m : Module} {cg : CallGraph}
    (h : entryConsistentB m cg = true) :
    ∀ F ∈ m.functions, nodeFunOf cg (cg.entry F.id) = some F.id := by
  intro F hF
  exact eq_of_beq (List.all_eq_true.mp h F hF)

theorem nodeFunsInModule_spec {m : Module} {cg : CallGraph}
    (h : nodeFunsInModuleB m cg = true) :
    graphFuns cg ⊆ moduleIds m := by
  intro x hx
  obtain ⟨nd, hnd, hfunc⟩ := List.mem_filterMap.mp (List.mem_toFinset.mp hx)
  have := List.all_eq_true.mp h nd hnd
  rw [hfunc] at this
  exact of_decide_eq_true this

theorem bodyEdges_spec {m : Module} {cg : CallGraph}
    (h : bodyEdgesB m cg = true) :
    ∀ F ∈ m.functions, ∀ i ∈ F.body, ∀ c, instrCallee i = some c →
      c ∈ directCallees cg F.id := by
  intro F hF i hi c hc
  have h1 := List.all_eq_true.mp (List.all_eq_true.mp h F hF) i hi
  rw [hc] at h1
  exact of_decide_eq_true h1

theorem argsInModule_spec {m : Module} (h : argsInModuleB m = true) :
    ∀ F ∈ m.functions, ∀ i ∈ F.body, ∀ g ∈ instrArgRefs i, g ∈ moduleIds m := by
  intro F hF i hi g hg
  exact of_decide_eq_true
    (List.all_eq_true.mp (List.all_eq_true.mp (List.all_eq_true.mp h F hF) i hi) g hg)

theorem find?_id_of_nodup {F : Fn} :
    ∀ (l : List Fn), (l.map (fun G => G.id)).Nodup → F ∈ l →
      l.find? (fun G => G.id == F.id) = some F := by
  intro l
  induction l with
  | nil => intro _ hF; exact absurd hF (List.not_mem_nil F)
  | cons G t ih =>
    intro hnd hF
    rcases List.mem_cons.mp hF with rfl | hF'
    · simp [List.find?]
    · rw [List.map_cons] at hnd
      obtain ⟨h1, h2⟩ := List.nodup_cons.mp hnd
      have hGne : G.id ≠ F.id := by
        intro heq
        exact h1 (heq ▸ List.mem_map.mpr ⟨F, hF', rfl⟩)
      rw [List.find?]
      have hbeq : (G.id == F.id) = false := beq_eq_false_iff_ne.mpr hGne
      rw [hbeq]
      exact ih h2 hF'

theorem find_id {m : Module} (hnd : idsNodupB m = true) {F : Fn}
    (hF : F ∈ m.functions) : m.find F.id = some F :=
  find?_id_of_nodup m.functions (idsNodup_spec hnd) hF

theorem isDecl_eq {m : Module} (hnd : idsNodupB m = true) {F : Fn}
    (hF : F ∈ m.functions) : isDecl m F.id = F.isDecl := by
  simp [isDecl, find_id hnd hF]

theorem bodyOf_eq {m : Module} (hnd : idsNodupB m = true) {F : Fn}
    (hF : F ∈ m.functions) : bodyOf m F.id = F.body := by
  simp [bodyOf, find_id hnd hF]

theorem mem_moduleIds_elim {m : Module} {x : Nat} (h : x ∈ moduleIds m) :
    ∃ F ∈ m.functions, F.id = x := by
  obtain ⟨F, hF, hid⟩ := List.mem_map.mp (List.mem_toFinset.mp h)
  exact ⟨F, hF, hid⟩

/-! ### Small-step facts about the wrappers -/

theorem collectMany_nil (m : Module) (cg : CallGraph) (fuel : Nat)
    (out : Finset Nat) : collectMany m cg fuel [] out = some out := by
  cases fuel <;> rfl

theorem indirectAux_nil (m : Module) (cg : CallGraph)
    (functionTypes : Nat → Finset Nat) (fuel : Nat)
    (reachable processed : Finset Nat) :
    indirectAux m cg functionTypes fuel [] reachable processed = some reachable := by
  cases fuel <;> rfl

theorem dfsFuel_succ (cg : CallGraph) :
    dfsFuel cg = ((cg.nodes.map (fun nd => 1 + nd.children.length)).sum + 1) + 1 := rfl

/-- The candidate observable stop conditions of one DFS branch: null node, no
underlying function, declaration, or already-visited function. -/
def branchStopsB (m : Module) (cg : CallGraph) (node : Option Nat)
    (out : Finset Nat) : Bool :=
  match nodeFunOf cg node with
  | none => true
  | some f => isDecl m f || decide (f ∈ out)

theorem collect_reachable_stop (m : Module) (cg : CallGraph)
    (node : Option Nat) (out : Finset Nat)
    (hstop : branchStopsB m cg node out = true) :
    collect_reachable_functions m cg node out = some out := by
  rw [collect_reachable_functions, dfsFuel_succ]
  cases node with
  | none => simp [collectMany]
  | some n =>
    cases hnf : nodeFunOf cg (some n) with
    | none => simp [collectMany, hnf]
    | some f =>
      simp only [branchStopsB, hnf] at hstop
      by_cases hd : isDecl m f = true
      · simp [collectMany, hnf, hd]
      · have hmem : f ∈ out := by
          rcases Bool.or_eq_true _ _ |>.mp hstop with h1 | h1
          · exact absurd h1 hd
          · exact of_decide_eq_true h1
        simp [collectMany, hnf, hd, hmem]

theorem collect_reachable_inserts (m : Module) (cg : CallGraph)
    {node : Option Nat} {out r : Finset Nat} {f : Nat}
    (h : collect_reachable_functions m cg node out = some r)
    (hnf : nodeFunOf cg node = some f) (hd : isDecl m f = false) : f ∈ r := by
  have h' : collectMany m cg (dfsFuel cg) [node] out = some r := h
  exact collectMany_handled m cg _ _ _ _ h' node (List.mem_cons_self node []) f hnf hd


/-! ### Closure under statically-known direct calls -/

/-- A set of functions is closed under the direct calls appearing in the
bodies of its members (restricted to defined callees). -/
def directClosed (m : Module) (s : Finset Nat) : Prop :=
  ∀ f ∈ s, ∀ i ∈ bodyOf m f, ∀ c, instrCallee i = some c →
    isDecl m c = false → c ∈ s

theorem dfs_directClosed (m : Module) (cg : CallGraph)
    (hbe : bodyEdgesB m cg = true)
    (hnfc : nodeFunConsistentB cg = true)
    {node : Option Nat} {r : Finset Nat}
    (h : collect_reachable_functions m cg node ∅ = some r) :
    directClosed m r := by
  intro f hf i hi c hc hcd
  cases hfind : m.find f with
  | none =>
    simp only [bodyOf, hfind] at hi
    exact absurd hi (List.not_mem_nil i)
  | some F =>
    obtain ⟨hFmem, hFid⟩ := find_spec hfind
    simp only [bodyOf, hfind] at hi
    have hcall : c ∈ directCallees cg f :=
      hFid ▸ bodyEdges_spec hbe F hFmem i hi c hc
    have h' : collectMany m cg (dfsFuel cg) [node] ∅ = some r := h
    exact collectMany_closed m cg (nodeFunConsistent_spec hnfc) _ _ _ _ h' f hf
      (Finset.not_mem_empty f) c hcall hcd

theorem process_directClosed (m : Module) (cg : CallGraph)
    (hdnb : declNoBodyB m = true) (hnd : idsNodupB m = true)
    (hec : entryConsistentB m cg = true) (hbe : bodyEdgesB m cg = true)
    (hnfc : nodeFunConsistentB cg = true) :
    ∀ (lst : List Nat) (reachable : Finset Nat) (wl : List Nat) p,
      (∀ x ∈ lst, x ∈ moduleIds m) →
      process_candidates m cg lst reachable wl = some p →
      directClosed m reachable → directClosed m p.1 := by
  intro lst
  induction lst with
  | nil =>
    intro reachable wl p _ h hcl
    simp only [process_candidates, Option.some.injEq] at h
    subst h
    exact hcl
  | cons f rest ih =>
    intro reachable wl p hmods h hcl
    rw [process_step] at h
    by_cases hmem : f ∈ reachable
    · rw [if_pos hmem] at h
      exact ih reachable wl p (fun x hx => hmods x (List.mem_cons_of_mem f hx)) h hcl
    · rw [if_neg hmem] at h
      cases heq : collect_reachable_functions m cg (cg.entry f) ∅ with
      | none => rw [heq] at h; exact absurd h (by simp)
      | some rs =>
        rw [heq] at h
        have hrscl : directClosed m rs := dfs_directClosed m cg hbe hnfc heq
        have hmergecl :
            directClosed m
              (merge_reachables (setList rs) (insert f reachable) (wl ++ [f])).1 := by
          intro g hg i hi c hc hcd
          rcases merge_subset _ _ _ g hg with hg1 | hg1
          · rcases Finset.mem_insert.mp hg1 with rfl | hg2
            · obtain ⟨F, hFmem, hFid⟩ :=
                mem_moduleIds_elim (hmods g (List.mem_cons_self g rest))
              by_cases hFd : F.isDecl = true
              · have hbody : bodyOf m g = [] := by
                  rw [← hFid, bodyOf_eq hnd hFmem, declNoBody_spec hdnb F hFmem hFd]
                rw [hbody] at hi
                exact absurd hi (List.not_mem_nil i)
              · have hFd' : F.isDecl = false := by simpa using hFd
                have hgd : isDecl m g = false := by
                  rw [← hFid, isDecl_eq hnd hFmem]
                  exact hFd'
                have hnf : nodeFunOf cg (cg.entry g) = some g := by
                  have h2 := entryConsistent_spec hec F hFmem
                  rw [hFid] at h2
                  exact h2
                have hgrs : g ∈ rs := collect_reachable_inserts m cg heq hnf hgd
                have hcrs : c ∈ rs := hrscl g hgrs i hi c hc hcd
                exact merge_mem_lst _ _ _ c (mem_setList.mpr hcrs)
            · have h2 := hcl g hg2 i hi c hc hcd
              exact merge_mono _ _ _ (Finset.mem_insert_of_mem h2)
          · have hgrs : g ∈ rs := mem_setList.mp hg1
            have hcrs : c ∈ rs := hrscl g hgrs i hi c hc hcd
            exact merge_mem_lst _ _ _ c (mem_setList.mpr hcrs)
        exact ih _ _ p (fun x hx => hmods x (List.mem_cons_of_mem f hx)) h hmergecl

theorem icf_subset_moduleIds (m : Module) (functionTypes : Nat → Finset Nat)
    (hFT : ∀ s, functionTypes s ⊆ moduleIds m) (ham : argsInModuleB m = true) :
    ∀ f x, x ∈ collect_indirectly_called_functions m functionTypes f →
      x ∈ moduleIds m := by
  intro f x hx
  obtain ⟨i, hi, hxi⟩ := mem_icf.mp hx
  cases hfind : m.find f with
  | none =>
    simp only [bodyOf, hfind] at hi
    exact absurd hi (List.not_mem_nil i)
  | some F =>
    have hF : F ∈ m.functions := (find_spec hfind).1
    simp only [bodyOf, hfind] at hi
    have hargs : ∀ g ∈ instrArgRefs i, g ∈ moduleIds m :=
      fun g hg => argsInModule_spec ham F hF i hi g hg
    cases i with
    | other => simp [instrFunctions] at hxi
    | call callee t args =>
      simp only [instrFunctions] at hxi
      rcases Finset.mem_union.mp hxi with h1 | h1
      · cases callee with
        | some c => simp [get_indirect_called_functions] at h1
        | none =>
          simp only [get_indirect_called_functions] at h1
          exact hFT t h1
      · obtain ⟨a, ha, hxa⟩ := mem_gffa.mp h1
        cases a with
        | funcRef g =>
          simp only [argFuncs, Finset.mem_singleton] at hxa
          subst hxa
          exact hargs x (List.mem_filterMap.mpr ⟨Arg.funcRef x, ha, rfl⟩)
        | funcTyped s =>
          simp only [argFuncs] at hxa
          exact hFT s hxa
        | other => simp [argFuncs] at hxa
    | invoke callee t args =>
      simp only [instrFunctions] at hxi
      rcases Finset.mem_union.mp hxi with h1 | h1
      · cases callee with
        | some c => simp [get_indirect_called_functions] at h1
        | none =>
          simp only [get_indirect_called_functions] at h1
          exact hFT t h1
      · obtain ⟨a, ha, hxa⟩ := mem_gffa.mp h1
        cases a with
        | funcRef g =>
          simp only [argFuncs, Finset.mem_singleton] at hxa
          subst hxa
          exact hargs x (List.mem_filterMap.mpr ⟨Arg.funcRef x, ha, rfl⟩)
        | funcTyped s =>
          simp only [argFuncs] at hxa
          exact hFT s hxa
        | other => simp [argFuncs] at hxa

theorem indirectAux_directClosed (m : Module) (cg : CallGraph)
    (functionTypes : Nat → Finset Nat)
    (hdnb : declNoBodyB m = true) (hnd : idsNodupB m = true)
    (hec : entryConsistentB m cg = true) (hbe : bodyEdgesB m cg = true)
    (hnfc : nodeFunConsistentB cg = true) (ham : argsInModuleB m = true)
    (hFT : ∀ s, functionTypes s ⊆ moduleIds m) :
    ∀ fuel wl reachable processed r,
      indirectAux m cg functionTypes fuel wl reachable processed = some r →
      directClosed m reachable → directClosed m r := by
  intro fuel
  induction fuel with
  | zero =>
    intro wl reachable processed r h hcl
    match wl with
    | [] =>
      simp only [indirectAux, Option.some.injEq] at h
      exact h ▸ hcl
    | f :: rest => simp [indirectAux] at h
  | succ k ih =>
    intro wl reachable processed r h hcl
    match wl with
    | [] =>
      simp only [indirectAux, Option.some.injEq] at h
      exact h ▸ hcl
    | f :: rest =>
      rw [indirectAux_step] at h
      by_cases hmem : f ∈ processed
      · rw [if_pos hmem] at h
        exact ih rest reachable processed r h hcl
      · rw [if_neg hmem] at h
        cases heq : process_candidates m cg
            (setList (collect_indirectly_called_functions m functionTypes f))
            reachable rest with
        | none => rw [heq] at h; exact absurd h (by simp)
        | some p =>
          rw [heq] at h
          refine ih p.2 p.1 (insert f processed) r h ?_
          refine process_directClosed m cg hdnb hnd hec hbe hnfc _ _ _ p ?_ heq hcl
          intro x hx
          exact icf_subset_moduleIds m functionTypes hFT ham f x (mem_setList.mp hx)

/-! ### Composition facts used by the claims -/

theorem getReachable_icf_closed {m : Module} {cg : CallGraph} {e : Nat}
    {r : Finset Nat} (h : getReachableFunctions m cg e = some r) :
    ∀ f ∈ r,
      collect_indirectly_called_functions m (collect_function_types m) f ⊆ r := by
  obtain ⟨r₀, h1, h2⟩ := getReachableFunctions_elim h
  have h2' : indirectAux m cg (collect_function_types m)
      (r₀.card + (candidates m cg).card + 1) (setList r₀) r₀ ∅ = some r := h2
  exact indirectAux_icf_closed m cg _ _ _ _ _ _ h2'
    (fun f hf => Or.inr (mem_setList.mpr hf))
    (fun f hf => absurd hf (Finset.not_mem_empty f))

theorem getReachable_directClosed {m : Module} {cg : CallGraph} {e : Nat}
    {r : Finset Nat} (hwf : WellFormed m cg)
    (h : getReachableFunctions m cg e = some r) : directClosed m r := by
  obtain ⟨hdnb, hnd, hec, hnm, hbe, ham, hnfc⟩ := hwf
  obtain ⟨r₀, h1, h2⟩ := getReachableFunctions_elim h
  have hcl₀ : directClosed m r₀ := dfs_directClosed m cg hbe hnfc h1
  have h2' : indirectAux m cg (collect_function_types m)
      (r₀.card + (candidates m cg).card + 1) (setList r₀) r₀ ∅ = some r := h2
  exact indirectAux_directClosed m cg _ hdnb hnd hec hbe hnfc ham
    (cft_subset_moduleIds m) _ _ _ _ _ h2' hcl₀

theorem getReachableFuel_eq (m : Module) (cg : CallGraph) (e : Nat)
    {d w : Nat} (hd : dfsFuel cg ≤ d)
    (hw : (graphFuns cg).card + (candidates m cg).card + 1 ≤ w) :
    getReachableFunctionsFuel m cg d w e = getReachableFunctions m cg e := by
  obtain ⟨r₀, h1⟩ := Option.isSome_iff_exists.mp
    (collect_reachable_functions_isSome m cg (cg.entry e) ∅)
  obtain ⟨r, h2⟩ := Option.isSome_iff_exists.mp
    (collect_indirectly_isSome m cg (collect_function_types m)
      (cft_subset_moduleIds m) r₀)
  have h1' : collectMany m cg (dfsFuel cg) [cg.entry e] ∅ = some r₀ := h1
  have h1d : collectMany m cg d [cg.entry e] ∅ = some r₀ :=
    collectMany_fuel_mono m cg _ _ _ _ _ hd h1'
  have h2' : indirectAux m cg (collect_function_types m)
      (r₀.card + (candidates m cg).card + 1) (setList r₀) r₀ ∅ = some r := h2
  have hr₀ : r₀.card ≤ (graphFuns cg).card := by
    have hsub := collect_reachable_functions_subset m cg h1
    rw [Finset.empty_union] at hsub
    exact Finset.card_le_card hsub
  have h2w : indirectAux m cg (collect_function_types m) w
      (setList r₀) r₀ ∅ = some r :=
    indirectAux_fuel_mono m cg _ _ _ _ _ _ _ (by omega) h2'
  have hL : getReachableFunctionsFuel m cg d w e = some r := by
    simp only [getReachableFunctionsFuel, h1d]
    exact h2w
  have hR : getReachableFunctions m cg e = some r := by
    simp only [getReachableFunctions, h1]
    exact h2'
  rw [hL, hR]


/-! ### Concrete example modules used by counterexamples and witnesses -/

/-- `main` (id 0, defined) makes an indirect call of type 1; `ext` (id 1) is a
declaration of type 1. -/
def ExA : Module :=
  ⟨[⟨0, "main", 0, false, [Instr.call none 1 []]⟩, ⟨1, "ext", 1, true, []⟩]⟩

/-- Call graph of `ExA`: one node per function, no call records. -/
def ExAcg : CallGraph :=
  ⟨[⟨some 0, []⟩, ⟨some 1, []⟩],
    fun f => if f = 0 then some 0 else if f = 1 then some 1 else none⟩

/-- `main` (id 0, defined) directly calls `inc` (id 1, defined). -/
def ExB : Module :=
  ⟨[⟨0, "main", 0, false, [Instr.call (some 1) 1 []]⟩, ⟨1, "inc", 1, false, []⟩]⟩

/-- Call graph of `ExB`: `main`'s node has a call record to `inc`'s node. -/
def ExBcg : CallGraph :=
  ⟨[⟨some 0, [some 1]⟩, ⟨some 1, []⟩],
    fun f => if f = 0 then some 0 else if f = 1 then some 1 else none⟩

/-- `main` (id 0, defined) directly calls the declaration `ext` (id 1). -/
def ExC : Module :=
  ⟨[⟨0, "main", 0, false, [Instr.call (some 1) 1 []]⟩, ⟨1, "ext", 1, true, []⟩]⟩

/-- Call graph of `ExC`: `main`'s node has a call record to `ext`'s node. -/
def ExCcg : CallGraph :=
  ⟨[⟨some 0, [some 1]⟩, ⟨some 1, []⟩],
    fun f => if f = 0 then some 0 else if f = 1 then some 1 else none⟩

/-- A module containing only a declaration `d` of type 5. -/
def ExD : Module := ⟨[⟨0, "d", 5, true, []⟩]⟩

/-- A module containing only a defined `main` with an empty body. -/
def ExE : Module := ⟨[⟨0, "main", 0, false, []⟩]⟩

/-- Call graph of `ExE`. -/
def ExEcg : CallGraph := ⟨[⟨some 0, []⟩], fun f => if f = 0 then some 0 else none⟩

/-- `main` (id 0, defined) makes an indirect call of type 1; `inc` (id 1) is a
defined function of type 1. -/
def ExF : Module :=
  ⟨[⟨0, "main", 0, false, [Instr.call none 1 []]⟩, ⟨1, "inc", 1, false, []⟩]⟩

/-- Call graph of `ExF`: one node per function, no call records. -/
def ExFcg : CallGraph :=
  ⟨[⟨some 0, []⟩, ⟨some 1, []⟩],
    fun f => if f = 0 then some 0 else if f = 1 then some 1 else none⟩

/-! ### Claims -/

/-- C1, counterexample: in the well-formed module `ExA`, `main` makes an
indirect call whose type matches the declaration `ext` (id 1); the signature
index includes declarations, so the indirect-closure phase inserts `ext` and
the bodiless `ext` is a member of the returned set, refuting the claim that no
function lacking a body is ever a member of the result. -/
theorem claimC1_counterexample :
    WellFormed ExA ExAcg ∧ isDecl ExA 1 = true ∧
      getReachableFunctions ExA ExAcg 0 = some {1, 0} ∧
      1 ∈ ({1, 0} : Finset Nat) := by
  refine ⟨by decide, by decide, rfl, by decide⟩

/-- C1, amended: the direct call-graph walk `collect_reachable_functions`
never inserts a bodiless function (every function it adds to `out` is
defined); however the indirect/callback closure can insert declarations whose
signature matches an indirect call site, so the full query's result may
contain bodiless functions. -/
theorem claimC1_direct_walk_excludes_declarations (m : Module) (cg : CallGraph)
    (node : Option Nat) (out r : Finset Nat)
    (h : collect_reachable_functions m cg node out = some r) :
    ∀ f ∈ r, f ∉ out → isDecl m f = false :=
  collectMany_no_decl m cg _ _ _ _ h

/-- C1, witness for the amended theorem at the module `ExE`. -/
theorem claimC1_direct_walk_excludes_declarations_witness :
    isDecl ExE 0 = false :=
  claimC1_direct_walk_excludes_declarations ExE ExEcg (some 0) ∅ {0} rfl 0
    (by decide) (by decide)

/-- C2, counterexample: `collect_function_types` of the module `ExD` indexes
the bodiless function `d` (id 0) under its type 5, refuting the claim that
declarations are never entered into the index. -/
theorem claimC2_counterexample :
    isDecl ExD 0 = true ∧ 0 ∈ collect_function_types ExD 5 := by
  refine ⟨by decide, by decide⟩

/-- C2, amended: the signature index maps each function type to exactly the
set of all module functions — defined or declared — having that type; the C++
loop performs no `isDeclaration()` filtering. -/
theorem claimC2_index_maps_all_functions (m : Module) (t x : Nat) :
    x ∈ collect_function_types m t ↔ ∃ F ∈ m.functions, F.id = x ∧ F.sig = t :=
  mem_collect_function_types

/-- C3, counterexample: in the well-formed module `ExC`, `main` (id 0) is in
the result and has a call site with statically known callee `ext` (id 1), but
`ext` is a declaration and is not in the result, refuting the claim for
bodiless callees. -/
theorem claimC3_counterexample :
    WellFormed ExC ExCcg ∧
      getReachableFunctions ExC ExCcg 0 = some {0} ∧
      0 ∈ ({0} : Finset Nat) ∧
      Instr.call (some 1) 1 [] ∈ bodyOf ExC 0 ∧
      instrCallee (Instr.call (some 1) 1 []) = some 1 ∧
      1 ∉ ({0} : Finset Nat) := by
  refine ⟨by decide, rfl, by decide, by decide, rfl, by decide⟩

/-- C3, amended: the result of `getReachableFunctions` is closed under direct
calls with *defined* callees: for every function `f` in the returned set and
every call site inside `f` whose callee `c` is statically known and has a
body, `c` is also in the returned set.  (A statically known bodiless callee is
skipped by the walk.) -/
theorem claimC3_closed_under_defined_direct_calls (m : Module) (cg : CallGraph)
    (e : Nat) (r : Finset Nat) (hwf : WellFormed m cg)
    (h : getReachableFunctions m cg e = some r) :
    ∀ f ∈ r, ∀ i ∈ bodyOf m f, ∀ c, instrCallee i = some c →
      isDecl m c = false → c ∈ r :=
  getReachable_directClosed hwf h

/-- C3, witness for the amended theorem at the module `ExB`. -/
theorem claimC3_closed_under_defined_direct_calls_witness :
    1 ∈ ({1, 0} : Finset Nat) :=
  claimC3_closed_under_defined_direct_calls ExB ExBcg 0 {1, 0} (by decide) rfl
    0 (by decide) (Instr.call (some 1) 1 []) (by decide) 1 rfl (by decide)

/-- C4: the result of `getReachableFunctions` is closed under
signature-matched indirect calls: if `f` is in the returned set and `f`'s body
has a call site with no statically known callee and called-type `S`, then
every defined module function `G` of type `S` is in the returned set. -/
theorem claimC4_indirect_closure (m : Module) (cg : CallGraph) (e : Nat)
    (r : Finset Nat) (f : Nat) (i : Instr) (S : Nat) (args : List Arg) (G : Fn)
    (h : getReachableFunctions m cg e = some r) (hf : f ∈ r)
    (hi : i ∈ bodyOf m f)
    (hcall : i = Instr.call none S args ∨ i = Instr.invoke none S args)
    (hG : G ∈ m.functions) (hGd : G.isDecl = false) (hsig : G.sig = S) :
    G.id ∈ r := by
  refine getReachable_icf_closed h f hf ?_
  refine mem_icf.mpr ⟨i, hi, ?_⟩
  have hmem : G.id ∈ collect_function_types m S :=
    mem_collect_function_types.mpr ⟨G, hG, rfl, hsig⟩
  rcases hcall with rfl | rfl
  · exact Finset.mem_union_left _ hmem
  · exact Finset.mem_union_left _ hmem

/-- C4, witness at the module `ExF`: `main`'s indirect call of type 1 pulls
the defined function `inc` (id 1) into the result. -/
theorem claimC4_indirect_closure_witness : 1 ∈ ({1, 0} : Finset Nat) :=
  claimC4_indirect_closure ExF ExFcg 0 {1, 0} 0 (Instr.call none 1 []) 1 []
    ⟨1, "inc", 1, false, []⟩ rfl (by decide) (by decide) (Or.inl rfl)
    (by decide) rfl rfl

/-- C5: the set returned by `getReachableFunctions` is a superset of the set
produced by the direct call-graph traversal alone from the same entry; the
indirect-closure phase only adds members. -/
theorem claimC5_monotonicity (m : Module) (cg : CallGraph) (e : Nat)
    (r r₀ : Finset Nat) (h1 : getReachableFunctions m cg e = some r)
    (h2 : collect_reachable_functions m cg (cg.entry e) ∅ = some r₀) :
    r₀ ⊆ r := by
  obtain ⟨r₀', hc, hi⟩ := getReachableFunctions_elim h1
  obtain rfl := Option.some.inj (hc.symm.trans h2)
  exact collect_indirectly_mono hi

/-- C5, witness at the module `ExB`. -/
theorem claimC5_monotonicity_witness : ({1, 0} : Finset Nat) ⊆ {1, 0} :=
  claimC5_monotonicity ExB ExBcg 0 {1, 0} {1, 0} rfl rfl

/-- C6: one branch of the direct walk leaves `out` unchanged exactly when the
node is null, the node has no underlying function, the function is a
declaration, or the function is already present (`branchStopsB`); and every
function the walk newly inserts has all of its statically known, defined
callees in the final result — the visited-set guard is what bounds the
recursion (the walk, embedded with the `dfsFuel` bound, always returns
`some`). -/
theorem claimC6_branch_guard (m : Module) (cg : CallGraph) (node : Option Nat)
    (out r : Finset Nat) (hwf : nodeFunConsistentB cg = true)
    (h : collect_reachable_functions m cg node out = some r) :
    ((r = out) ↔ branchStopsB m cg node out = true) ∧
      ∀ f ∈ r, f ∉ out → ∀ g ∈ directCallees cg f, isDecl m g = false → g ∈ r := by
  constructor
  · constructor
    · intro hro
      by_contra hstop
      have hstop' : branchStopsB m cg node out = false := by
        simpa using hstop
      cases hnf : nodeFunOf cg node with
      | none => simp [branchStopsB, hnf] at hstop'
      | some f =>
        simp only [branchStopsB, hnf, Bool.or_eq_false_iff] at hstop'
        obtain ⟨hd, hmem⟩ := hstop'
        have hfr : f ∈ r := collect_reachable_inserts m cg h hnf hd
        rw [hro] at hfr
        exact absurd hfr (of_decide_eq_false hmem)
    · intro hstop
      have := collect_reachable_stop m cg node out hstop
      exact Option.some.inj (this.symm.trans h) |>.symm
  · have h' : collectMany m cg (dfsFuel cg) [node] out = some r := h
    exact fun f hf hout g hg hgd =>
      collectMany_closed m cg (nodeFunConsistent_spec hwf) _ _ _ _ h' f hf hout
        g hg hgd

/-- C6, witness at the module `ExB`. -/
theorem claimC6_branch_guard_witness :
    ((({1, 0} : Finset Nat) = ∅) ↔ branchStopsB ExB ExBcg (some 0) ∅ = true) ∧
      ∀ f ∈ ({1, 0} : Finset Nat), f ∉ (∅ : Finset Nat) →
        ∀ g ∈ directCallees ExBcg f, isDecl ExB g = false →
          g ∈ ({1, 0} : Finset Nat) :=
  claimC6_branch_guard ExB ExBcg (some 0) ∅ {1, 0} (by decide) rfl

/-- C7: the worklist loop of `collect_indirectly_reachable_functions`
terminates on every input whose type index only produces module functions
(which the index built by `collect_function_types` always does): with the
fuel bound derived from the finitely many insertable functions, the loop
always returns a result instead of exhausting its fuel. -/
theorem claimC7_worklist_terminates (m : Module) (cg : CallGraph)
    (functionTypes : Nat → Finset Nat) (reachable : Finset Nat)
    (hFT : ∀ s, functionTypes s ⊆ moduleIds m) :
    (collect_indirectly_reachable_functions m cg functionTypes reachable).isSome :=
  collect_indirectly_isSome m cg functionTypes hFT reachable

/-- C7, witness at the module `ExA`. -/
theorem claimC7_worklist_terminates_witness :
    (collect_indirectly_reachable_functions ExA ExAcg (fun _ => ∅) {0}).isSome :=
  claimC7_worklist_terminates ExA ExAcg (fun _ => ∅) {0}
    (fun _ => Finset.empty_subset _)

/-- C8: `runOnModule` always returns `false`; it reports the missing-entry
condition through its log and produces no reachable set precisely when the
module has no function named `main`, and in every other case the query
produces a result — the missing entry is the only failure condition. -/
theorem claimC8_missing_entry (m : Module) (cg : CallGraph) :
    (runOnModule m cg).returnValue = false ∧
      ((runOnModule m cg).loggedNoMain = true ↔ m.getFunction "main" = none) ∧
      ((runOnModule m cg).reachable = none ↔ m.getFunction "main" = none) := by
  cases hfind : m.getFunction "main" with
  | none => simp [runOnModule, hfind]
  | some mainF =>
    have hsome := getReachableFunctions_isSome m cg mainF.id
    refine ⟨by simp [runOnModule, hfind], by simp [runOnModule, hfind], ?_⟩
    simp only [runOnModule, hfind]
    constructor
    · intro hx
      rw [hx] at hsome
      exact absurd hsome (by simp)
    · intro hx
      exact absurd hx (by simp)

/-- C9: `getReachableFunctions` is deterministic and idempotent — the
computation is pure over the module and call graph, and its result does not
even depend on the fuel parameter of the embedding once the fuel covers the
finitely many functions: any two adequately-fuelled runs return the same set
as the canonical run. -/
theorem claimC9_deterministic (m : Module) (cg : CallGraph) (e : Nat)
    (d₁ w₁ d₂ w₂ : Nat) (hd₁ : dfsFuel cg ≤ d₁)
    (hw₁ : (graphFuns cg).card + (candidates m cg).card + 1 ≤ w₁)
    (hd₂ : dfsFuel cg ≤ d₂)
    (hw₂ : (graphFuns cg).card + (candidates m cg).card + 1 ≤ w₂) :
    getReachableFunctionsFuel m cg d₁ w₁ e = getReachableFunctions m cg e ∧
      getReachableFunctionsFuel m cg d₂ w₂ e =
        getReachableFunctionsFuel m cg d₁ w₁ e := by
  have hA := getReachableFuel_eq m cg e hd₁ hw₁
  have hB := getReachableFuel_eq m cg e hd₂ hw₂
  exact ⟨hA, hB.trans hA.symm⟩

/-- C9, witness at the module `ExB` with two different fuel allocations. -/
theorem claimC9_deterministic_witness :
    getReachableFunctionsFuel ExB ExBcg 50 50 0 =
        getReachableFunctions ExB ExBcg 0 ∧
      getReachableFunctionsFuel ExB ExBcg 60 70 0 =
        getReachableFunctionsFuel ExB ExBcg 50 50 0 :=
  claimC9_deterministic ExB ExBcg 0 50 50 60 70 (by decide) (by decide)
    (by decide) (by decide)

/-- C10: for a module function `F`, the set returned by
`getReachableFunctions F` contains `F` itself if and only if `F` has a body;
for a bodiless entry the direct traversal contributes nothing and the
worklist is seeded empty, so the entry is absent from its own result. -/
theorem claimC10_entry_iff_defined (m : Module) (cg : CallGraph) (F : Fn)
    (r : Finset Nat) (hF : F ∈ m.functions) (hnd : idsNodupB m = true)
    (hec : entryConsistentB m cg = true)
    (h : getReachableFunctions m cg F.id = some r) :
    F.id ∈ r ↔ F.isDecl = false := by
  constructor
  · intro hmem
    by_contra hdecl
    have hd : isDecl m F.id = true := by
      rw [isDecl_eq hnd hF]
      simpa using hdecl
    have hnf : nodeFunOf cg (cg.entry F.id) = some F.id :=
      entryConsistent_spec hec F hF
    have hstop : branchStopsB m cg (cg.entry F.id) ∅ = true := by
      simp [branchStopsB, hnf, hd]
    have hr₀ := collect_reachable_stop m cg (cg.entry F.id) ∅ hstop
    obtain ⟨r₀', hc, hi⟩ := getReachableFunctions_elim h
    obtain rfl := Option.some.inj (hc.symm.trans hr₀)
    have hi' : indirectAux m cg (collect_function_types m)
        (Finset.card (∅ : Finset Nat) + (candidates m cg).card + 1)
        (setList (∅ : Finset Nat)) ∅ ∅ = some r := hi
    rw [setList_empty, indirectAux_nil] at hi'
    obtain rfl := Option.some.inj hi'
    exact absurd hmem (Finset.not_mem_empty _)
  · intro hdef
    have hd : isDecl m F.id = false := by
      rw [isDecl_eq hnd hF]
      exact hdef
    have hnf : nodeFunOf cg (cg.entry F.id) = some F.id :=
      entryConsistent_spec hec F hF
    obtain ⟨r₀, hc, hi⟩ := getReachableFunctions_elim h
    exact collect_indirectly_mono hi (collect_reachable_inserts m cg hc hnf hd)

/-- C10, witness at the module `ExE`. -/
theorem claimC10_entry_iff_defined_witness :
    (0 : Nat) ∈ ({0} : Finset Nat) ↔
      (⟨0, "main", 0, false, []⟩ : Fn).isDecl = false :=
  claimC10_entry_iff_defined ExE ExEcg ⟨0, "main", 0, false, []⟩ {0}
    (by decide) (by decide) (by decide) rfl

end oh
